import Mathlib

/-!
Verification development for the NachOS-4.0 MP3 scheduler
(`code/threads/scheduler.cc`) and MP4 file system
(`code/filesys/filehdr.cc`, `code/filesys/filesys.cc`,
`code/userprog/ksyscall.h`).

The C++ sources are shallowly embedded: machine `int`s become `Int`
(no arithmetic here ever approaches 2^31, so overflow is not modelled),
in-place mutation becomes explicit state passing, `ASSERT` failures and
out-of-bounds disk fetches become `Except`/`Option` errors, and the
synchronous disk is replaced by ghost fields recording exactly what was
written (every sub-header is written once, to a freshly claimed sector,
and read back unchanged, so the ghost tree agrees with the disk).

Recursive routines are embedded with an explicit fuel argument so that
they are structurally recursive and hence kernel-reducible on concrete
inputs; the public wrappers supply fuel that is provably sufficient
(see `AllocateF_no_fuel` below), so fuel exhaustion is a dead branch.
-/

namespace NachOS

/-! Constants.  `SectorSize` and `NumDirect` come from `disk.h` and
`filehdr.h`, which are not part of the excerpted sources. -/

/-- Modelled from the spec: `SectorSize`, the number of bytes per disk
sector (disk.h is not under src/); the spec fixes the typical value 128. -/
def SectorSize : Int := 128

/-- Modelled from the spec: `NumDirect = (SectorSize - 8)/4 = 30`, the
number of sector pointers in a file header (filehdr.h is not under src/). -/
def NumDirect : Nat := 30

/-- Threshold `Level2 = NumDirect * SectorSize` (filehdr.cc line 32). -/
def Level2 : Int := 3840

/-- Threshold `Level3 = NumDirect * NumDirect * SectorSize` (filehdr.cc line 33). -/
def Level3 : Int := 115200

/-- Threshold `Level4 = NumDirect * NumDirect * NumDirect * SectorSize` (filehdr.cc line 34). -/
def Level4 : Int := 3456000

/-- Modelled from the spec: `divRoundUp(n, s) = (n + s - 1)/s` (utility.h is
not under src/; the spec writes `ceil(numBytes/SectorSize)`).  C integer
division truncates toward zero while Lean's `Int` division is Euclidean;
every claim below applies this only to nonnegative operands, where the two
agree. -/
def divRoundUp (n s : Int) : Int := (n + s - 1) / s

/-- `divRoundDown(n, s) = n/s` (utility.h); used by `ByteToSector`. -/
def divRoundDown (n s : Int) : Int := n / s

/-! The free-sector bitmap.  `bitmap.cc`/`pbitmap.cc` are not under src/;
the operations are modelled from the spec ("persistent bitmap of free
sectors; atomic find-and-set"): bit `true` means allocated, `FindAndSet`
claims the lowest-numbered clear bit and returns it (or -1 if none),
`NumClear` counts clear bits, `Test`/`Clear` assert their index in range. -/

/-- Modelled from the spec: `Bitmap::NumClear`, the number of clear bits. -/
def bmNumClear (fm : List Bool) : Nat := fm.count false

/-- Modelled from the spec: `Bitmap::FindAndSet`: return the lowest clear
bit after setting it, or -1 (map unchanged) when every bit is set. -/
def bmFindAndSet (fm : List Bool) : Int × List Bool :=
  match fm.findIdx? (fun b => !b) with
  | some i => ((i : Int), fm.set i true)
  | none => (-1, fm)

/-- Modelled from the spec: `Bitmap::Test` on an in-range index; out of
range the C code asserts, which callers below surface separately. -/
def bmTest (fm : List Bool) (i : Int) : Bool :=
  decide (0 ≤ i) && fm.getD i.toNat false

/-- Modelled from the spec: `Bitmap::Clear`; `none` models the failure of
the C `ASSERT(which >= 0 && which < numBits)`. -/
def bmClear (fm : List Bool) (i : Int) : Option (List Bool) :=
  if 0 ≤ i ∧ i.toNat < fm.length then some (fm.set i.toNat false) else none

/-! The file header (filehdr.cc).  The C structure holds `numBytes`,
`numSectors` and the `dataSectors` array of `NumDirect` sector numbers.
The embedding adds two ghost fields: `subs` records the sub-header that
`Allocate` wrote to disk at `dataSectors[i]` (the disk is written once per
sector, so fetching `dataSectors[i]` returns `subs[i]`), and `allOk`
records that no allocation failure happened anywhere in the subtree
(the C code ignores the boolean returned by recursive `Allocate` calls,
so its own return value does not imply that). -/

/-- Errors of the allocation model: `assertFail` models a failed C
`ASSERT`, `outOfFuel` marks fuel exhaustion (proved unreachable for the
fuel supplied by the wrapper `FileHeader.Allocate`). -/
inductive AllocErr where
  | assertFail
  | outOfFuel
deriving DecidableEq, Repr

/-- File header record (filehdr.h): `numBytes`, `numSectors`,
`dataSectors[NumDirect]`, plus the ghost fields described above. -/
structure FileHeader where
  numBytes : Int
  numSectors : Int
  dataSectors : List Int
  subs : List FileHeader
  allOk : Bool
deriving Repr

/-- The `FileHeader::FileHeader` constructor (filehdr.cc lines 43-48):
`numBytes = numSectors = -1`, every `dataSectors` entry `-1`. -/
def FileHeader.mkNew : FileHeader :=
  ⟨-1, -1, List.replicate NumDirect (-1), [], false⟩

/-- Level threshold selection of `Allocate` (filehdr.cc lines 86-97): the
per-sub-header byte bound for an indirect header of the given size. -/
def boundOf (fileSize : Int) : Int :=
  if fileSize > Level4 then Level4
  else if fileSize > Level3 then Level3
  else Level2

/-- Indirection level of a file of the given size: 0 = direct.  Ghost
function used for fuel bounds and termination reasoning. -/
def lvlOf (fileSize : Int) : Nat :=
  if fileSize > Level4 then 3
  else if fileSize > Level3 then 2
  else if fileSize > Level2 then 1
  else 0

/-- Direct-case allocation loop of `Allocate` (filehdr.cc lines 114-123):
claim `count` sectors into consecutive `dataSectors` slots starting at
`i`; a -1 from `FindAndSet` fails the `ASSERT(dataSectors[i] >= 0)`. -/
def allocDirectF : Nat → List Bool → Nat → List Int →
    Except AllocErr (List Int × List Bool)
  | 0, fm, _, ds => .ok (ds, fm)
  | count + 1, fm, i, ds =>
    let p := bmFindAndSet fm
    if p.1 < 0 then .error .assertFail
    else allocDirectF count p.2 (i + 1) (ds.set i p.1)

/-- Indirect-case `while (fileSize > 0)` loop of `Allocate` (filehdr.cc
lines 98-112), with the recursive `Allocate` call abstracted as `aF`.
`bound` is the level bound computed once before the loop, `nb`/`ns` the
already stored `numBytes`/`numSectors` of the header under construction,
`steps` the loop fuel.  Each iteration claims a sector for the sub-header,
allocates the sub-header with size `bound` (or the remaining size if
smaller), records the written sub-header in the ghost `subs` list, and
decrements the remaining size by `bound` even when the last chunk is
smaller. -/
def allocLoopF (aF : List Bool → Int → Except AllocErr (Bool × FileHeader × List Bool))
    (bound nb ns : Int) :
    Nat → List Bool → Int → Nat → List Int → List FileHeader → Bool →
    Except AllocErr (Bool × FileHeader × List Bool)
  | steps, fm, remaining, i, ds, subsAcc, ok =>
    if remaining > 0 then
      match steps with
      | 0 => .error .outOfFuel
      | steps' + 1 =>
        let p := bmFindAndSet fm
        if p.1 < 0 then .error .assertFail
        else
          let subSize := if remaining > bound then bound else remaining
          match aF p.2 subSize with
          | .error e => .error e
          | .ok (_, subHdr, fm2) =>
            allocLoopF aF bound nb ns steps' fm2 (remaining - bound) (i + 1)
              (ds.set i p.1) (subsAcc ++ [subHdr]) (ok && subHdr.allOk)
    else .ok (true, ⟨nb, ns, ds, subsAcc, ok⟩, fm)

/-- Fuelled `FileHeader::Allocate` (filehdr.cc lines 73-126).  Sets
`numBytes`/`numSectors`, fails (returning FALSE with the map untouched)
when the map has fewer clear bits than `numSectors`, then allocates
directly or through sub-headers according to the level thresholds. -/
def AllocateF : Nat → List Bool → Int → Except AllocErr (Bool × FileHeader × List Bool)
  | 0, _, _ => .error .outOfFuel
  | fuel + 1, fm, fileSize =>
    let numSectors := divRoundUp fileSize SectorSize
    if (bmNumClear fm : Int) < numSectors then
      .ok (false, ⟨fileSize, numSectors, List.replicate NumDirect (-1), [], false⟩, fm)
    else if fileSize > Level2 then
      allocLoopF (AllocateF fuel) (boundOf fileSize) fileSize numSectors
        fileSize.toNat fm fileSize 0 (List.replicate NumDirect (-1)) [] true
    else
      match allocDirectF numSectors.toNat fm 0 (List.replicate NumDirect (-1)) with
      | .error e => .error e
      | .ok (ds, fm') => .ok (true, ⟨fileSize, numSectors, ds, [], true⟩, fm')

/-- `FileHeader::Allocate` with fuel sufficient for every size (proved
never to run out below). -/
def FileHeader.Allocate (fm : List Bool) (fileSize : Int) :
    Except AllocErr (Bool × FileHeader × List Bool) :=
  AllocateF (lvlOf fileSize + 1) fm fileSize

/-- Direct-case loop of `FileHeader::Deallocate` (filehdr.cc lines
147-152): for each `i < numSectors`, `ASSERT(freeMap->Test(dataSectors[i]))`
then clear the bit; `none` models a failed assert (including the
out-of-range asserts inside `Test`/`Clear`). -/
def deallocDirect (ds : List Int) : Nat → Nat → List Bool → Option (List Bool)
  | 0, _, fm => some fm
  | count + 1, i, fm =>
    let s := ds.getD i (-1)
    if 0 ≤ s ∧ s.toNat < fm.length then
      if fm.getD s.toNat false then
        match bmClear fm s with
        | some fm' => deallocDirect ds count (i + 1) fm'
        | none => none
      else none
    else none

/-- Indirect-case loop of `FileHeader::Deallocate` (filehdr.cc lines
139-145) with the recursive call abstracted as `dF`: for `i < round`,
fetch the sub-header stored at `dataSectors[i]` (the ghost `subs` list;
fetching a slot where no sub-header was written returns garbage, modelled
as `none`) and recursively deallocate it.  Note the loop never clears the
sub-header's own sector `dataSectors[i]`. -/
def deallocSubs (dF : FileHeader → List Bool → Option (List Bool)) :
    List FileHeader → Nat → List Bool → Option (List Bool)
  | _, 0, fm => some fm
  | [], _ + 1, _ => none
  | sub :: rest, round + 1, fm =>
    match dF sub fm with
    | some fm' => deallocSubs dF rest round fm'
    | none => none

/-- Fuelled `FileHeader::Deallocate` (filehdr.cc lines 135-154): if
indirect, recursively deallocate `divRoundUp(numSectors, NumDirect)`
sub-headers; if direct, clear the data sectors. -/
def DeallocateF : Nat → FileHeader → List Bool → Option (List Bool)
  | 0, _, _ => none
  | fuel + 1, h, fm =>
    if h.numBytes > Level2 then
      deallocSubs (DeallocateF fuel) h.subs (divRoundUp h.numSectors NumDirect).toNat fm
    else
      deallocDirect h.dataSectors h.numSectors.toNat 0 fm

/-- `FileHeader::Deallocate` with fuel sufficient for every header built
by `Allocate` (the indirection depth is at most 4). -/
def FileHeader.Deallocate (h : FileHeader) (fm : List Bool) : Option (List Bool) :=
  DeallocateF (lvlOf h.numBytes + 1) h fm

/-- Fuelled `FileHeader::ByteToSector` (filehdr.cc lines 208-230).  If
indirect, select the threshold `nBytes` from `numBytes` exactly as in
`Allocate`, fetch the sub-header stored at `dataSectors[offset/nBytes]`
(ghost `subs` list; `none` when no sub-header was written there) and
recurse on `offset % nBytes`; if direct, return
`dataSectors[offset / SectorSize]` (`none` models the out-of-bounds array
read the C code would perform for offsets outside the file). -/
def ByteToSectorF : Nat → FileHeader → Int → Option Int
  | 0, _, _ => none
  | fuel + 1, h, offset =>
    if offset < 0 then none
    else if h.numBytes > Level2 then
      let nBytes :=
        if h.numBytes > Level4 then Level4
        else if h.numBytes > Level3 then Level3
        else Level2
      let which := divRoundDown offset nBytes
      let pos := offset % nBytes
      match h.subs.get? which.toNat with
      | some sub => ByteToSectorF fuel sub pos
      | none => none
    else h.dataSectors.get? (divRoundDown offset SectorSize).toNat

/-- `FileHeader::ByteToSector` with fuel sufficient for every header
built by `Allocate`. -/
def FileHeader.ByteToSector (h : FileHeader) (offset : Int) : Option Int :=
  ByteToSectorF (lvlOf h.numBytes + 1) h offset

/-- Ghost: the data (leaf) sectors of a header tree in increasing byte
order; entry `i` is the sector holding bytes `[i*SectorSize, (i+1)*SectorSize)`. -/
def leafSectorsF : Nat → FileHeader → List Int
  | 0, _ => []
  | fuel + 1, h =>
    if h.numBytes > Level2 then (h.subs.map (leafSectorsF fuel)).flatten
    else h.dataSectors.take h.numSectors.toNat

/-- Ghost: leaf sectors with the wrapper fuel. -/
def FileHeader.leafSectors (h : FileHeader) : List Int :=
  leafSectorsF (lvlOf h.numBytes + 1) h

/-- Ghost: the successive sizes passed to the recursive `Allocate` calls
by the `while (fileSize > 0)` loop with chunk bound `b`: the remaining
size is decremented by `b` on every iteration, even when the final chunk
is smaller than `b` (the guard `0 < b` only makes the recursion well
defined; the loop always runs with `b` one of the positive level bounds). -/
def chunkSizes (b : Int) (fs : Int) : List Int :=
  if 0 < b then
    if fs > 0 then (if fs > b then b else fs) :: chunkSizes b (fs - b) else []
  else []
termination_by fs.toNat
decreasing_by omega

/-! The MP3 scheduler (scheduler.cc).  Threads are modelled by the fields
the scheduler reads and writes; the `status` field and the debug output
are elided (no claim mentions them).  In-place mutation of a thread
followed by `list->Remove(iterThread)` (pointer equality) is modelled by
removing the unique element with the thread's id — the claims assume
distinct ids, mirroring distinct `Thread*` pointers. -/

/-- Scheduler-relevant per-thread state (thread.h is not under src/; the
fields and their uses are those of scheduler.cc). -/
structure Thread where
  id : Nat
  priority : Int
  predictTime : Int
  ReadyStartTime : Int
  TimeInReadyQueue : Int
deriving DecidableEq, Repr

/-- `Timecmp` (scheduler.cc lines 27-29): shorter predicted burst first. -/
def Timecmp (t1 t2 : Thread) : Int :=
  if t1.predictTime ≥ t2.predictTime then 1 else -1

/-- `Pricmp` (scheduler.cc lines 31-33): higher priority first. -/
def Pricmp (t1 t2 : Thread) : Int :=
  if t1.priority ≤ t2.priority then 1 else -1

/-- Modelled from the spec: `SortedList<T>::Insert` (list.cc is not under
src/): the new item is inserted before the first element the comparator
orders strictly after it, so equal keys keep insertion order
("ties resolved by insertion order"). -/
def sortedInsert (cmp : Thread → Thread → Int) (t : Thread) : List Thread → List Thread
  | [] => [t]
  | e :: es => if cmp t e < 0 then t :: e :: es else e :: sortedInsert cmp t es

/-- The scheduler state: the three ready queues (`L1`, `L2`, `L3` of
scheduler.cc) and the `kernel->alarm->preemptive` flag, which the
scheduler only ever sets to true. -/
structure SchedState where
  l1 : List Thread
  l2 : List Thread
  l3 : List Thread
  preemptive : Bool
deriving DecidableEq, Repr

/-- Which of the three ready queues. -/
inductive QueueId where
  | q1
  | q2
  | q3
deriving DecidableEq, Repr

def queueOf : QueueId → SchedState → List Thread
  | .q1, st => st.l1
  | .q2, st => st.l2
  | .q3, st => st.l3

/-- The queue a priority belongs to: L1 = [100,150), L2 = [50,100),
L3 = below 50 (the bands of ReadyToRun and aging). -/
def bandOf (p : Int) : QueueId :=
  if 100 ≤ p then .q1 else if 50 ≤ p then .q2 else .q3

/-- `Scheduler::ReadyToRun` (scheduler.cc lines 68-91): stamp
`ReadyStartTime = now` and insert by priority band; a thread with
priority ≥ 150 is inserted nowhere (no branch matches).  The
`setStatus(READY)` call and debug output are elided. -/
def ReadyToRun (now : Int) (st : SchedState) (thread0 : Thread) : SchedState :=
  let thread := { thread0 with ReadyStartTime := now }
  if thread.priority < 150 ∧ thread.priority ≥ 100 then
    { st with l1 := sortedInsert Timecmp thread st.l1 }
  else if thread.priority < 100 ∧ thread.priority ≥ 50 then
    { st with l2 := sortedInsert Pricmp thread st.l2 }
  else if thread.priority < 50 then
    { st with l3 := st.l3 ++ [thread] }
  else st

/-- `Scheduler::FindNextToRun` (scheduler.cc lines 162-183): remove and
return the front of the first non-empty queue (L1, then L2, then L3),
charging `now - ReadyStartTime` to the thread's `TimeInReadyQueue`;
NULL (here `none`) when all three are empty. -/
def FindNextToRun (now : Int) (st : SchedState) : Option Thread × SchedState :=
  match st.l1 with
  | t :: rest =>
    (some { t with TimeInReadyQueue := t.TimeInReadyQueue + (now - t.ReadyStartTime) },
     { st with l1 := rest })
  | [] =>
    match st.l2 with
    | t :: rest =>
      (some { t with TimeInReadyQueue := t.TimeInReadyQueue + (now - t.ReadyStartTime) },
       { st with l2 := rest })
    | [] =>
      match st.l3 with
      | t :: rest =>
        (some { t with TimeInReadyQueue := t.TimeInReadyQueue + (now - t.ReadyStartTime) },
         { st with l3 := rest })
      | [] => (none, st)

/-- The field updates of a promoted thread (scheduler.cc lines 122-124):
`TimeInReadyQueue := total - 1500`, `ReadyStartTime := now`,
`priority := min(149, priority + 10)`. -/
def promote (now : Int) (t : Thread) : Thread :=
  { t with
    TimeInReadyQueue := now - t.ReadyStartTime + t.TimeInReadyQueue - 1500,
    ReadyStartTime := now,
    priority := if t.priority + 10 > 149 then 149 else t.priority + 10 }

/-- The aging trigger (scheduler.cc line 121): priority in [0,150) and
total waiting time of at least 1500 ticks. -/
def eligible (now : Int) (t : Thread) : Prop :=
  (0 ≤ t.priority ∧ t.priority < 150) ∧
    1500 ≤ now - t.ReadyStartTime + t.TimeInReadyQueue

instance (now : Int) (t : Thread) : Decidable (eligible now t) := by
  unfold eligible
  infer_instance

/-- `list->Remove(iterThread)` (scheduler.cc line 126): remove the (by
pointer, here: by id) occurrence of the thread from the given queue. -/
def removeThread (which : QueueId) (st : SchedState) (t : Thread) : SchedState :=
  match which with
  | .q1 => { st with l1 := st.l1.eraseP (fun e => e.id == t.id) }
  | .q2 => { st with l2 := st.l2.eraseP (fun e => e.id == t.id) }
  | .q3 => { st with l3 := st.l3.eraseP (fun e => e.id == t.id) }

/-- One iteration of the iterator loop of `Scheduler::aging`
(scheduler.cc lines 117-151) acting on thread `t` found in queue `which`:
if eligible, update the thread's fields, remove it from its queue,
re-insert it into the queue of its new priority band, and set the
preemption flag according to the current thread (debug output elided). -/
def agingThread (now : Int) (cur : Thread) (which : QueueId)
    (st : SchedState) (t : Thread) : SchedState :=
  if eligible now t then
    let t' := promote now t
    let st1 := removeThread which st t
    if t'.priority ≥ 100 then
      let st2 := { st1 with l1 := sortedInsert Timecmp t' st1.l1 }
      if cur.priority < 100 then { st2 with preemptive := true }
      else if cur.priority ≥ 100 ∧ cur.predictTime > t'.predictTime then
        { st2 with preemptive := true }
      else st2
    else if t'.priority ≥ 50 then
      let st2 := { st1 with l2 := sortedInsert Pricmp t' st1.l2 }
      if cur.priority < 50 then { st2 with preemptive := true } else st2
    else
      { st1 with l3 := st1.l3 ++ [t'] }
  else st

/-- `Scheduler::aging` (scheduler.cc lines 113-152): iterate over the
elements of the given queue as of loop entry (a ListIterator snapshot),
applying the per-thread step.  Elements the loop re-inserts into the same
queue are not revisited: the C++ iterator walks the `next` pointer of the
(freed) removed element, so re-visiting is undefined behaviour there; the
model takes the single-visit reading, which is also the only reading under
which the documented aging law (+10 exactly once) holds. -/
def aging (now : Int) (cur : Thread) (which : QueueId) (st : SchedState) : SchedState :=
  (queueOf which st).foldl (agingThread now cur which) st

/-- `Scheduler::agingCheck` (scheduler.cc lines 93-97): age L1, then L2,
then L3. -/
def agingCheck (now : Int) (cur : Thread) (st : SchedState) : SchedState :=
  aging now cur .q3 (aging now cur .q2 (aging now cur .q1 st))

/-- The ids of all ready threads across the three queues. -/
def idsOf (st : SchedState) : List Nat :=
  (st.l1 ++ st.l2 ++ st.l3).map Thread.id

/-- No thread (by id) appears twice across the ready queues. -/
def DistinctIds (st : SchedState) : Prop := (idsOf st).Nodup

instance (st : SchedState) : Decidable (DistinctIds st) := by
  unfold DistinctIds
  infer_instance

/-- Every ready thread sits in the queue of its priority band. -/
def BandInv (st : SchedState) : Prop :=
  (∀ t ∈ st.l1, 100 ≤ t.priority ∧ t.priority ≤ 149) ∧
  (∀ t ∈ st.l2, 50 ≤ t.priority ∧ t.priority ≤ 99) ∧
  (∀ t ∈ st.l3, 0 ≤ t.priority ∧ t.priority ≤ 49)

instance (st : SchedState) : Decidable (BandInv st) := by
  unfold BandInv
  infer_instance

/-! ### File-system path resolution (filesys.cc) -/

/-- `DirectorySector` (filesys.cc line 59): the sector holding the root
directory; the kernel-global `directoryFile` is `new OpenFile(DirectorySector)`
(filesys.cc line 117). -/
def DirectorySector : Nat := 1

/-- `NumDirEntries` (filesys.cc line 65). -/
def NumDirEntries : Nat := 64

/-- Modelled from the spec: a directory entry holds an in-use flag, a file
name and the header sector of the file (directory.h is not among the
sources under review). -/
structure DirEntry where
  inUse : Bool
  name : String
  sector : Nat
deriving Repr, DecidableEq

/-- Modelled from the spec: `Directory::Find(name)` scans the table and
returns the header sector of the first in-use entry whose name matches,
or -1 when the name is absent (directory.cc is not among the sources
under review). -/
def dirFind (tbl : List DirEntry) (nm : String) : Int :=
  match tbl.find? (fun e => e.inUse && e.name == nm) with
  | some e => (e.sector : Int)
  | none => -1

/-- Modelled from the spec: `new Directory(NumDirEntries)` builds a table
all of whose entries have `inUse = FALSE`. -/
def freshDirectory : List DirEntry :=
  List.replicate NumDirEntries ⟨false, "", 0⟩

/-- The walking loop of `FileSystem::Open` (filesys.cc lines 329-336):
fetch the directory behind the current handle, look up the next
component, stop at the current handle when the lookup returns -1,
otherwise descend into the found sector. The disk is modelled as a map
from a sector to the directory table stored there; an `OpenFile*` handle
is modelled by its header sector, with `none` standing for NULL. -/
def fsOpenLoop (disk : Nat → List DirEntry) :
    List String → Option Nat → Option Nat
  | [], dirObj => dirObj
  | nm :: rest, dirObj =>
    match dirObj with
    | none => none
    | some d =>
      let sector := dirFind (disk d) nm
      if sector = -1 then some d
      else fsOpenLoop disk rest (some sector.toNat)

/-- `FileSystem::Open` (filesys.cc lines 319-341): `directoryObj` starts
at `directoryFile` (the root handle) and the walking loop runs over the
slash-separated components; whatever handle the loop ends with is
returned. -/
def FileSystem.Open (disk : Nat → List DirEntry) (comps : List String) :
    Option Nat :=
  fsOpenLoop disk comps (some DirectorySector)

/-- Specification-side walk used to state C10: the sector of the deepest
directory reached while resolving `comps` from `cur`, following
components for as long as they are found. -/
def deepestReached (disk : Nat → List DirEntry) : List String → Nat → Nat
  | [], cur => cur
  | nm :: rest, cur =>
    let sector := dirFind (disk cur) nm
    if sector = -1 then cur
    else deepestReached disk rest sector.toNat

/-- The walking loop of `FileSystem::OpenAFile` (filesys.cc lines
353-360): unlike in `FileSystem::Open`, the scratch directory is searched
BEFORE it is ever fetched; the fetch happens only after a successful
find. Returns the value of `tmpName` when the loop exits (`none` when
every component was consumed). -/
def openAFileLoop (disk : Nat → List DirEntry) :
    List String → List DirEntry → Option String
  | [], _ => none
  | nm :: rest, dtbl =>
    let sector := dirFind dtbl nm
    if sector = -1 then some nm
    else openAFileLoop disk rest (disk sector.toNat)

/-- `FileSystem::OpenAFile` (filesys.cc lines 343-372): run the walking
loop starting from a freshly constructed, never fetched directory; then
re-fetch the ROOT directory and look up the component the loop stopped
at; on a nonnegative sector set the kernel-global `fileDescriptor` and
return that sector, else return -1. The result pair is (the new
`fileDescriptor` when one is installed, the returned `OpenFileId`). When
the loop consumes every component the C++ calls `Directory::Find(NULL)`,
which is undefined; that case is modelled as the -1 return and is
unreachable for nonempty paths, because the very first search of the
fresh directory already fails. -/
def FileSystem.OpenAFile (disk : Nat → List DirEntry) (comps : List String) :
    Option Nat × Int :=
  match openAFileLoop disk comps freshDirectory with
  | none => (none, -1)
  | some nm =>
    let sector := dirFind (disk DirectorySector) nm
    if 0 ≤ sector then (some sector.toNat, sector) else (none, -1)

/-- A two-level test disk: the root directory (sector 1) holds the
directory entry "a" at sector 5; sector 5 holds the file entry "f" at
sector 7. -/
def c2disk : Nat → List DirEntry := fun s =>
  if s = 1 then [⟨true, "a", 5⟩]
  else if s = 5 then [⟨true, "f", 7⟩]
  else []

theorem Level2_eq : Level2 = (NumDirect : Int) * SectorSize := by decide

theorem Level3_eq : Level3 = (NumDirect : Int) * NumDirect * SectorSize := by decide

theorem Level4_eq : Level4 = (NumDirect : Int) * NumDirect * NumDirect * SectorSize := by decide

/-! Basic facts about the bitmap model. -/

theorem bmTest_set_true (fm : List Bool) (n : Nat) (hn : n < fm.length) :
    bmTest (fm.set n true) (n : Int) = true := by
  simp [bmTest, List.getD_eq_getElem?_getD, List.getElem?_set, hn]

theorem bmTest_mono_set (fm : List Bool) (n : Nat) (t : Int)
    (h : bmTest fm t = true) : bmTest (fm.set n true) t = true := by
  simp only [bmTest, Bool.and_eq_true, decide_eq_true_eq] at h ⊢
  refine ⟨h.1, ?_⟩
  have h2 := h.2
  simp only [List.getD_eq_getElem?_getD, List.getElem?_set] at h2 ⊢
  by_cases he : n = t.toNat
  · subst he
    by_cases hlen : t.toNat < fm.length
    · simp [hlen]
    · rw [List.getElem?_eq_none (by omega)] at h2
      simp at h2
  · simp [he] at h2 ⊢
    exact h2

/-- Characterisation of a successful `FindAndSet`: the returned sector was
the lowest clear bit, it is set afterwards, and no other bit changes. -/
theorem bmFindAndSet_spec (fm : List Bool) (s : Int) (fm' : List Bool)
    (h : bmFindAndSet fm = (s, fm')) (hs : 0 ≤ s) :
    s.toNat < fm.length ∧ bmTest fm s = false ∧ bmTest fm' s = true ∧
      (∀ t, bmTest fm t = true → bmTest fm' t = true) := by
  unfold bmFindAndSet at h
  cases hf : fm.findIdx? (fun b => !b) with
  | none => rw [hf] at h; cases h; omega
  | some i =>
    rw [hf] at h
    cases h
    rw [List.findIdx?_eq_some_iff_findIdx_eq] at hf
    obtain ⟨h1, h2⟩ := hf
    subst h2
    refine ⟨by simpa using h1, ?_, ?_, ?_⟩
    · have := @List.findIdx_getElem _ (fun b => !b) fm h1
      simp at this
      simp [bmTest, List.getD_eq_getElem?_getD, List.getElem?_eq_getElem h1, this]
    · simpa using bmTest_set_true fm _ h1
    · intro t ht
      exact bmTest_mono_set fm _ t ht

/-- The direct allocation loop only sets bits in the map. -/
theorem allocDirectF_mono (count : Nat) : ∀ fm i ds ds' fm',
    allocDirectF count fm i ds = .ok (ds', fm') →
    ∀ t, bmTest fm t = true → bmTest fm' t = true := by
  induction count with
  | zero => intro fm i ds ds' fm' h t ht; cases h; exact ht
  | succ n ih =>
    intro fm i ds ds' fm' h t ht
    unfold allocDirectF at h
    by_cases hneg : (bmFindAndSet fm).1 < 0
    · simp [hneg] at h
    · simp only [hneg, if_false] at h
      have hspec := bmFindAndSet_spec fm (bmFindAndSet fm).1 (bmFindAndSet fm).2
        rfl (by omega)
      exact ih _ _ _ _ _ h t (hspec.2.2.2 t ht)

/-- The indirect allocation loop only sets bits in the map, provided the
abstracted recursive call does. -/
theorem allocLoopF_mono (aF : List Bool → Int → Except AllocErr (Bool × FileHeader × List Bool))
    (hmono : ∀ fmx s rx hx fmy, aF fmx s = .ok (rx, hx, fmy) →
      ∀ t, bmTest fmx t = true → bmTest fmy t = true)
    (bound nb ns : Int) :
    ∀ steps fm remaining i ds subsAcc ok r hdr fm',
    allocLoopF aF bound nb ns steps fm remaining i ds subsAcc ok = .ok (r, hdr, fm') →
    ∀ t, bmTest fm t = true → bmTest fm' t = true := by
  intro steps
  induction steps with
  | zero =>
    intro fm remaining i ds subsAcc ok r hdr fm' h t ht
    unfold allocLoopF at h
    by_cases hr : remaining > 0
    · simp [hr] at h
    · simp only [hr, if_false] at h; cases h; exact ht
  | succ n ih =>
    intro fm remaining i ds subsAcc ok r hdr fm' h t ht
    unfold allocLoopF at h
    by_cases hr : remaining > 0
    · simp only [hr, if_true] at h
      by_cases hneg : (bmFindAndSet fm).1 < 0
      · simp [hneg] at h
      · simp only [hneg, if_false] at h
        have hspec := bmFindAndSet_spec fm (bmFindAndSet fm).1 (bmFindAndSet fm).2
          rfl (by omega)
        cases ha : aF (bmFindAndSet fm).2
          (if remaining > bound then bound else remaining) with
        | error e => rw [ha] at h; cases h
        | ok v =>
          obtain ⟨rv, subHdr, fm2⟩ := v
          rw [ha] at h
          exact ih _ _ _ _ _ _ _ _ _ h t
            (hmono _ _ _ _ _ ha t (hspec.2.2.2 t ht))
    · simp only [hr, if_false] at h; cases h; exact ht

/-- `Allocate` only sets bits in the free map (on any non-crashing run). -/
theorem AllocateF_mono (fuel : Nat) : ∀ fm fs r hdr fm',
    AllocateF fuel fm fs = .ok (r, hdr, fm') →
    ∀ t, bmTest fm t = true → bmTest fm' t = true := by
  induction fuel with
  | zero => intro fm fs r hdr fm' h; cases h
  | succ n ih =>
    intro fm fs r hdr fm' h t ht
    unfold AllocateF at h
    by_cases h1 : (bmNumClear fm : Int) < divRoundUp fs SectorSize
    · simp only [h1, if_true] at h; cases h; exact ht
    · simp only [h1, if_false] at h
      by_cases h2 : fs > Level2
      · simp only [h2, if_true] at h
        exact allocLoopF_mono (AllocateF n) ih _ _ _ _ _ _ _ _ _ _ _ _ _ h t ht
      · simp only [h2, if_false] at h
        cases hd : allocDirectF (divRoundUp fs SectorSize).toNat fm 0
          (List.replicate NumDirect (-1)) with
        | error e => rw [hd] at h; cases h
        | ok v =>
          obtain ⟨ds, fmd⟩ := v
          rw [hd] at h
          cases h
          exact allocDirectF_mono _ _ _ _ _ _ hd t ht

/-! Facts about the level structure. -/

theorem boundOf_pos (fs : Int) : 0 < boundOf fs := by
  unfold boundOf Level2 Level3 Level4; split <;> [omega; split <;> omega]

theorem boundOf_lt (fs : Int) (h : Level2 < fs) : boundOf fs < fs := by
  unfold Level2 at h
  unfold boundOf Level2 Level3 Level4
  split <;> [omega; split <;> omega]

theorem lvlOf_mono {a b : Int} (h : a ≤ b) : lvlOf a ≤ lvlOf b := by
  unfold lvlOf Level2 Level3 Level4
  split_ifs <;> omega

theorem lvlOf_boundOf (fs : Int) (h : Level2 < fs) : lvlOf (boundOf fs) + 1 = lvlOf fs := by
  by_cases h4 : fs > Level4
  · rw [show boundOf fs = Level4 by unfold boundOf; rw [if_pos h4],
      show lvlOf fs = 3 by unfold lvlOf; rw [if_pos h4],
      show lvlOf Level4 = 2 by decide]
  · by_cases h3 : fs > Level3
    · rw [show boundOf fs = Level3 by unfold boundOf; rw [if_neg h4, if_pos h3],
        show lvlOf fs = 2 by unfold lvlOf; rw [if_neg h4, if_pos h3],
        show lvlOf Level3 = 1 by decide]
    · rw [show boundOf fs = Level2 by unfold boundOf; rw [if_neg h4, if_neg h3],
        show lvlOf fs = 1 by unfold lvlOf; rw [if_neg h4, if_neg h3, if_pos h],
        show lvlOf Level2 = 0 by decide]

/-! Facts about the direct allocation loop. -/

theorem allocDirectF_length (count : Nat) : ∀ fm i ds ds' fm',
    allocDirectF count fm i ds = .ok (ds', fm') → ds'.length = ds.length := by
  induction count with
  | zero => intro fm i ds ds' fm' h; cases h; rfl
  | succ n ih =>
    intro fm i ds ds' fm' h
    unfold allocDirectF at h
    by_cases hneg : (bmFindAndSet fm).1 < 0
    · simp [hneg] at h
    · simp only [hneg, if_false] at h
      have := ih _ _ _ _ _ h
      simpa using this

theorem allocDirectF_preserve (count : Nat) : ∀ fm i ds ds' fm',
    allocDirectF count fm i ds = .ok (ds', fm') →
    ∀ m, m < i → ds'.get? m = ds.get? m := by
  induction count with
  | zero => intro fm i ds ds' fm' h m hm; cases h; rfl
  | succ n ih =>
    intro fm i ds ds' fm' h m hm
    unfold allocDirectF at h
    by_cases hneg : (bmFindAndSet fm).1 < 0
    · simp [hneg] at h
    · simp only [hneg, if_false] at h
      rw [ih _ _ _ _ _ h m (by omega)]
      simp only [List.get?_eq_getElem?, List.getElem?_set]
      have : i ≠ m := by omega
      simp [this]

theorem allocDirectF_no_fuel (count : Nat) : ∀ fm i ds,
    allocDirectF count fm i ds ≠ .error .outOfFuel := by
  induction count with
  | zero => intro fm i ds h; cases h
  | succ n ih =>
    intro fm i ds h
    unfold allocDirectF at h
    by_cases hneg : (bmFindAndSet fm).1 < 0
    · simp [hneg] at h
    · simp only [hneg, if_false] at h
      exact ih _ _ _ h

/-- Each slot written by the direct loop holds a sector that was clear
before the loop ran and is set when it finishes. -/
theorem allocDirectF_claims (count : Nat) : ∀ fm i ds ds' fm',
    allocDirectF count fm i ds = .ok (ds', fm') → i + count ≤ ds.length →
    ∀ j, j < count → ∃ s, ds'.get? (i + j) = some s ∧ 0 ≤ s ∧
      bmTest fm s = false ∧ bmTest fm' s = true := by
  induction count with
  | zero => intro fm i ds ds' fm' h hlen j hj; omega
  | succ n ih =>
    intro fm i ds ds' fm' h hlen j hj
    unfold allocDirectF at h
    by_cases hneg : (bmFindAndSet fm).1 < 0
    · simp [hneg] at h
    · simp only [hneg, if_false] at h
      have hspec := bmFindAndSet_spec fm (bmFindAndSet fm).1 (bmFindAndSet fm).2
        rfl (by omega)
      cases j with
      | zero =>
        refine ⟨(bmFindAndSet fm).1, ?_, by omega, hspec.2.1, ?_⟩
        · simp only [Nat.add_zero]
          rw [allocDirectF_preserve n _ _ _ _ _ h i (by omega)]
          simp only [List.get?_eq_getElem?, List.getElem?_set]
          simp [show i < ds.length by omega]
        · exact allocDirectF_mono n _ _ _ _ _ h _ hspec.2.2.1
      | succ j' =>
        have hres := ih _ _ _ _ _ h (by simpa using by omega) j' (by omega)
        obtain ⟨s, hget, hs0, hclear, hset⟩ := hres
        refine ⟨s, by rw [show i + (j' + 1) = i + 1 + j' by omega]; exact hget, hs0, ?_, hset⟩
        by_cases hc : bmTest fm s = true
        · have := hspec.2.2.2 s hc
          by_cases he : s = (bmFindAndSet fm).1
          · subst he; rw [hspec.2.1] at hc; cases hc
          · rw [this] at hclear; cases hclear
        · simp only [Bool.not_eq_true] at hc; exact hc

/-- The indirect loop does not run out of fuel when given at least
`remaining.toNat` steps and a recursive allocator that does not. -/
theorem allocLoopF_no_fuel
    (aF : List Bool → Int → Except AllocErr (Bool × FileHeader × List Bool))
    (bound nb ns : Int) (hb : 0 < bound)
    (haF : ∀ fmx s, 0 < s → s ≤ bound → aF fmx s ≠ .error .outOfFuel) :
    ∀ steps fm remaining i ds subsAcc ok, remaining.toNat ≤ steps →
    allocLoopF aF bound nb ns steps fm remaining i ds subsAcc ok ≠ .error .outOfFuel := by
  intro steps
  induction steps with
  | zero =>
    intro fm remaining i ds subsAcc ok hsteps h
    unfold allocLoopF at h
    have hr : ¬(remaining > 0) := by omega
    simp [hr] at h
  | succ n ih =>
    intro fm remaining i ds subsAcc ok hsteps h
    unfold allocLoopF at h
    by_cases hr : remaining > 0
    · simp only [hr, if_true] at h
      by_cases hneg : (bmFindAndSet fm).1 < 0
      · simp [hneg] at h
      · simp only [hneg, if_false] at h
        cases ha : aF (bmFindAndSet fm).2
          (if remaining > bound then bound else remaining) with
        | error e =>
          rw [ha] at h
          cases e with
          | outOfFuel =>
            refine haF _ _ ?_ ?_ ha <;> split <;> omega
          | assertFail => cases h
        | ok v =>
          obtain ⟨rv, subHdr, fm2⟩ := v
          rw [ha] at h
          exact ih _ _ _ _ _ _ (by omega) h
    · simp [hr] at h

/-- Fuel greater than the indirection level never runs out: the loop
decrements the remaining size by the (positive) bound on every iteration,
and every recursive call has a strictly lower indirection level. -/
theorem AllocateF_no_fuel (fuel : Nat) : ∀ fm fs, lvlOf fs < fuel →
    AllocateF fuel fm fs ≠ .error .outOfFuel := by
  induction fuel with
  | zero => intro fm fs h; omega
  | succ n ih =>
    intro fm fs hlt h
    unfold AllocateF at h
    by_cases h1 : (bmNumClear fm : Int) < divRoundUp fs SectorSize
    · simp [h1] at h
    · simp only [h1, if_false] at h
      by_cases h2 : fs > Level2
      · simp only [h2, if_true] at h
        refine allocLoopF_no_fuel (AllocateF n) (boundOf fs) fs
          (divRoundUp fs SectorSize) (boundOf_pos fs) ?_ _ _ _ _ _ _ _ le_rfl h
        intro fmx s hs0 hsb
        refine ih fmx s ?_
        have hm := lvlOf_mono hsb
        have hb := lvlOf_boundOf fs h2
        omega
      · simp only [h2, if_false] at h
        cases hd : allocDirectF (divRoundUp fs SectorSize).toNat fm 0
          (List.replicate NumDirect (-1)) with
        | error e =>
          rw [hd] at h
          cases h
          exact allocDirectF_no_fuel _ _ _ _ hd
        | ok v => rw [hd] at h; cases h

/-- Complete characterisation of a successful run of the indirect
allocation loop: it returns TRUE, keeps the stored `numBytes`/`numSectors`,
appends one ghost sub-header per chunk whose sizes are exactly
`chunkSizes bound remaining`, and for every chunk index the sub-header
comes from a successful run of the abstracted allocator on an
intermediate map between `fm` and `fm'`. -/
theorem allocLoopF_ok_chunks
    (aF : List Bool → Int → Except AllocErr (Bool × FileHeader × List Bool))
    (haFnb : ∀ fmx s rx hx fmy, aF fmx s = .ok (rx, hx, fmy) → hx.numBytes = s)
    (haFmono : ∀ fmx s rx hx fmy, aF fmx s = .ok (rx, hx, fmy) →
      ∀ t, bmTest fmx t = true → bmTest fmy t = true)
    (bound nb ns : Int) (hb : 0 < bound) :
    ∀ steps fm remaining i ds subsAcc ok r hdr fm',
    allocLoopF aF bound nb ns steps fm remaining i ds subsAcc ok = .ok (r, hdr, fm') →
    r = true ∧ hdr.numBytes = nb ∧ hdr.numSectors = ns ∧
    ∃ newSubs, hdr.subs = subsAcc ++ newSubs ∧
      newSubs.map FileHeader.numBytes = chunkSizes bound remaining ∧
      (hdr.allOk = true → ok = true) ∧
      (∀ j : Nat, ((j : Int) * bound < remaining ∨ j < newSubs.length) →
        ∃ sub fmA rB fmB, newSubs.get? j = some sub ∧
          aF fmA (if remaining - (j : Int) * bound > bound then bound
            else remaining - (j : Int) * bound) = .ok (rB, sub, fmB) ∧
          (hdr.allOk = true → sub.allOk = true) ∧
          (∀ t, bmTest fm t = true → bmTest fmA t = true) ∧
          (∀ t, bmTest fmB t = true → bmTest fm' t = true)) := by
  intro steps
  induction steps with
  | zero =>
    intro fm remaining i ds subsAcc ok r hdr fm' h
    unfold allocLoopF at h
    by_cases hr : remaining > 0
    · simp [hr] at h
    · simp only [hr, if_false] at h
      cases h
      refine ⟨rfl, rfl, rfl, [], by simp, ?_, fun hok => hok, ?_⟩
      · rw [chunkSizes]
        simp [hb, hr]
      · intro j hj
        rcases hj with hj | hj
        · exact absurd hj (by push_neg; calc remaining ≤ 0 := by omega
            _ ≤ (j : Int) * bound := mul_nonneg (Int.natCast_nonneg j) hb.le)
        · simp at hj
  | succ n ih =>
    intro fm remaining i ds subsAcc ok r hdr fm' h
    unfold allocLoopF at h
    by_cases hr : remaining > 0
    · simp only [hr, if_true] at h
      by_cases hneg : (bmFindAndSet fm).1 < 0
      · simp [hneg] at h
      · simp only [hneg, if_false] at h
        have hspec := bmFindAndSet_spec fm (bmFindAndSet fm).1 (bmFindAndSet fm).2
          rfl (by omega)
        cases ha : aF (bmFindAndSet fm).2
          (if remaining > bound then bound else remaining) with
        | error e => rw [ha] at h; cases h
        | ok v =>
          obtain ⟨rv, subHdr, fm2⟩ := v
          rw [ha] at h
          obtain ⟨hr', hnb, hns, newSubs', hsubs', hmap', hok', hch'⟩ :=
            ih _ _ _ _ _ _ _ _ _ h
          refine ⟨hr', hnb, hns, subHdr :: newSubs', ?_, ?_, ?_, ?_⟩
          · rw [hsubs']; simp
          · rw [show chunkSizes bound remaining =
              (if remaining > bound then bound else remaining) ::
                chunkSizes bound (remaining - bound) from by
                rw [chunkSizes]; simp [hb, hr]]
            simp only [List.map_cons, hmap', List.cons.injEq, and_true]
            exact haFnb _ _ _ _ _ ha
          · intro hok
            have := hok' hok
            simp only [Bool.and_eq_true] at this
            exact this.1
          · intro j hj
            cases j with
            | zero =>
              refine ⟨subHdr, (bmFindAndSet fm).2, rv, fm2, rfl, ?_, ?_, ?_, ?_⟩
              · simpa using ha
              · intro hok
                have := hok' hok
                simp only [Bool.and_eq_true] at this
                exact this.2
              · exact hspec.2.2.2
              · exact allocLoopF_mono aF haFmono bound nb ns _ _ _ _ _ _ _ _ _ _ h
            | succ j' =>
              have hcast : ((j' + 1 : Nat) : Int) * bound = (j' : Int) * bound + bound := by
                push_cast; ring
              have hcond' : (j' : Int) * bound < remaining - bound ∨ j' < newSubs'.length := by
                rcases hj with hj | hj
                · rw [hcast] at hj; left; linarith
                · right; simpa using hj
              obtain ⟨sub, fmA, rB, fmB, hget, hrun, hsubok, hmonoA, hmonoB⟩ :=
                hch' j' hcond'
              refine ⟨sub, fmA, rB, fmB, by simpa using hget, ?_, hsubok, ?_, hmonoB⟩
              · rw [show remaining - ((j' + 1 : Nat) : Int) * bound =
                  (remaining - bound) - (j' : Int) * bound from by push_cast; ring]
                exact hrun
              · intro t ht
                exact hmonoA t (haFmono _ _ _ _ _ ha t (hspec.2.2.2 t ht))
    · simp only [hr, if_false] at h
      cases h
      refine ⟨rfl, rfl, rfl, [], by simp, ?_, fun hok => hok, ?_⟩
      · rw [chunkSizes]
        simp [hb, hr]
      · intro j hj
        rcases hj with hj | hj
        · exact absurd hj (by push_neg; calc remaining ≤ 0 := by omega
            _ ≤ (j : Int) * bound := mul_nonneg (Int.natCast_nonneg j) hb.le)
        · simp at hj

theorem boundOf_cases (fs : Int) :
    boundOf fs = 3840 ∨ boundOf fs = 115200 ∨ boundOf fs = 3456000 := by
  unfold boundOf Level2 Level3 Level4
  split_ifs <;> simp

theorem boundOf_mod (fs : Int) : boundOf fs % SectorSize = 0 := by
  rcases boundOf_cases fs with h | h | h <;> rw [h] <;> decide

/-- The loop makes `ceil(fileSize/bound)` iterations. -/
theorem chunkSizes_length (b : Int) (hb : 0 < b) (fs : Int) :
    ((chunkSizes b fs).length : Int) = if 0 < fs then divRoundUp fs b else 0 := by
  suffices H : ∀ n : Nat, ∀ fs : Int, fs.toNat ≤ n →
      ((chunkSizes b fs).length : Int) = if 0 < fs then divRoundUp fs b else 0 from
    H fs.toNat fs le_rfl
  intro n
  induction n with
  | zero =>
    intro fs hfs
    have h0 : ¬0 < fs := by omega
    rw [chunkSizes]
    simp [hb, h0]
  | succ m ih =>
    intro fs hfs
    by_cases h0 : 0 < fs
    · have key : divRoundUp fs b = divRoundUp (fs - b) b + 1 := by
        unfold divRoundUp
        rw [show fs + b - 1 = fs - b + b - 1 + 1 * b by ring]
        exact Int.add_mul_ediv_right _ 1 (by omega)
      have hrec := ih (fs - b) (by omega)
      rw [chunkSizes]
      simp only [hb, if_true, h0, List.length_cons]
      push_cast
      rw [hrec, key]
      by_cases hfb : 0 < fs - b
      · rw [if_pos hfb]
      · rw [if_neg hfb]
        have hz : divRoundUp (fs - b) b = 0 := by
          unfold divRoundUp
          rw [show fs - b + b - 1 = fs - 1 by ring]
          exact Int.ediv_eq_zero_of_lt (by omega) (by omega)
        omega
    · rw [chunkSizes]
      simp [hb, h0]

/-- Every chunk passed to a recursive `Allocate` call is positive and at
most the level bound. -/
theorem chunkSizes_mem (b : Int) (hb : 0 < b) : ∀ fs c, c ∈ chunkSizes b fs →
    0 < c ∧ c ≤ b := by
  suffices H : ∀ n : Nat, ∀ fs : Int, fs.toNat ≤ n → ∀ c, c ∈ chunkSizes b fs →
      0 < c ∧ c ≤ b from fun fs c => H fs.toNat fs le_rfl c
  intro n
  induction n with
  | zero =>
    intro fs hfs c hc
    rw [chunkSizes] at hc
    simp [hb, show ¬0 < fs by omega] at hc
  | succ m ih =>
    intro fs hfs c hc
    by_cases h0 : 0 < fs
    · rw [chunkSizes] at hc
      simp only [hb, if_true, h0, List.mem_cons] at hc
      rcases hc with rfl | hc
      · by_cases hfb : fs > b
        · simp only [hfb, if_true]; omega
        · simp only [hfb, if_false]; omega
      · exact ih (fs - b) (by omega) c hc
    · rw [chunkSizes] at hc
      simp [hb, h0] at hc

/-- Summing per-chunk sector counts over all chunks gives the total
sector count of the file, because every non-final chunk is an exact
multiple of `SectorSize`. -/
theorem chunks_len_sum (b : Int) (hb : 0 < b) (hdvd : b % SectorSize = 0) :
    ∀ n : Nat, ∀ fs : Int, fs.toNat ≤ n →
    ∀ (ns : List FileHeader) (len : FileHeader → Nat),
    ns.map FileHeader.numBytes = chunkSizes b fs →
    (∀ sub ∈ ns, len sub = (divRoundUp sub.numBytes SectorSize).toNat) →
    (ns.map len).sum = if 0 < fs then (divRoundUp fs SectorSize).toNat else 0 := by
  unfold SectorSize at hdvd ⊢
  intro n
  induction n with
  | zero =>
    intro fs hfs ns len hmap hlen
    have h0 : ¬0 < fs := by omega
    rw [chunkSizes] at hmap
    simp only [hb, if_true, h0, if_false] at hmap
    rw [List.map_eq_nil_iff] at hmap
    subst hmap
    simp [h0]
  | succ m ih =>
    intro fs hfs ns len hmap hlen
    by_cases h0 : 0 < fs
    · rw [chunkSizes] at hmap
      simp only [hb, if_true, h0] at hmap
      cases ns with
      | nil => simp at hmap
      | cons sub0 ns₂ =>
        simp only [List.map_cons, List.cons.injEq] at hmap
        obtain ⟨hnb0, hmap₂⟩ := hmap
        have hlen0 := hlen sub0 (by simp)
        rw [hnb0] at hlen0
        by_cases hfb : fs > b
        · rw [if_pos hfb] at hlen0
          have hrec := ih (fs - b) (by omega) ns₂ len hmap₂
            (fun sub hs => hlen sub (by simp [hs]))
          rw [if_pos (show 0 < fs - b by omega)] at hrec
          rw [if_pos h0]
          simp only [List.map_cons, List.sum_cons, hrec, hlen0]
          unfold divRoundUp
          omega
        · rw [if_neg hfb] at hlen0
          have hz : chunkSizes b (fs - b) = [] := by
            rw [chunkSizes]
            simp [hb, show ¬0 < fs - b by omega]
          rw [hz, List.map_eq_nil_iff] at hmap₂
          subst hmap₂
          rw [if_pos h0]
          simp only [List.map_cons, List.map_nil, List.sum_cons, List.sum_nil,
            hlen0, Nat.add_zero]
    · rw [chunkSizes] at hmap
      simp only [hb, if_true, h0, if_false] at hmap
      rw [List.map_eq_nil_iff] at hmap
      subst hmap
      simp [h0]

/-- Index arithmetic for a flattened list whose first `j` blocks all have
length `E`. -/
theorem flatten_get?_uniform (E : Nat) :
    ∀ (ls : List (List Int)) (j idx : Nat) (blk : List Int),
    ls.get? j = some blk →
    (∀ m, m < j → ∃ l, ls.get? m = some l ∧ l.length = E) →
    idx < blk.length →
    ls.flatten.get? (j * E + idx) = blk.get? idx := by
  intro ls j
  induction j generalizing ls with
  | zero =>
    intro idx blk hget hpre hidx
    cases ls with
    | nil => cases hget
    | cons l0 rest =>
      cases hget
      simp only [List.flatten_cons, Nat.zero_mul, Nat.zero_add,
        List.get?_eq_getElem?, List.getElem?_append]
      rw [if_pos hidx]
  | succ j' ih =>
    intro idx blk hget hpre hidx
    cases ls with
    | nil => cases hget
    | cons l0 rest =>
      obtain ⟨l, hl, hlen⟩ := hpre 0 (by omega)
      have hl0 : l0.length = E := by cases hl; exact hlen
      have hsm : (j' + 1) * E = j' * E + E := Nat.succ_mul j' E
      simp only [List.flatten_cons, List.get?_eq_getElem?]
      rw [List.getElem?_append]
      rw [if_neg (by omega)]
      rw [show (j' + 1) * E + idx - l0.length = j' * E + idx by omega]
      rw [← List.get?_eq_getElem?, ← List.get?_eq_getElem?]
      exact ih rest idx blk (by simpa using hget)
        (fun m hm => hpre (m + 1) (by omega)) hidx

theorem ByteToSectorF_indirect (fuel : Nat) (h : FileHeader) (offset : Int)
    (h0 : ¬offset < 0) (hind : h.numBytes > Level2) :
    ByteToSectorF (fuel + 1) h offset =
      match h.subs.get? ((offset / boundOf h.numBytes)).toNat with
      | some sub => ByteToSectorF fuel sub (offset % boundOf h.numBytes)
      | none => none := by
  simp only [ByteToSectorF, h0, if_false, hind, if_true]
  rfl

theorem ByteToSectorF_direct (fuel : Nat) (h : FileHeader) (offset : Int)
    (h0 : ¬offset < 0) (hdir : ¬h.numBytes > Level2) :
    ByteToSectorF (fuel + 1) h offset =
      h.dataSectors.get? ((offset / SectorSize)).toNat := by
  simp only [ByteToSectorF, h0, if_false, hdir, if_true]
  rfl

theorem leafSectorsF_indirect (fuel : Nat) (h : FileHeader) (hind : h.numBytes > Level2) :
    leafSectorsF (fuel + 1) h = (h.subs.map (leafSectorsF fuel)).flatten := by
  simp only [leafSectorsF, hind, if_true]

theorem leafSectorsF_direct (fuel : Nat) (h : FileHeader) (hdir : ¬h.numBytes > Level2) :
    leafSectorsF (fuel + 1) h = h.dataSectors.take h.numSectors.toNat := by
  simp only [leafSectorsF, hdir, if_false]

/-- Offset arithmetic tying the serving chunk and the in-chunk sector to
the global sector index, for each of the three level bounds (all
multiples of `SectorSize`). -/
theorem chunk_index_eq (b k : Int)
    (hb3 : b = 3840 ∨ b = 115200 ∨ b = 3456000) (hk : 0 ≤ k) :
    (k / SectorSize).toNat
      = (k / b).toNat * (divRoundUp b SectorSize).toNat + (k % b / SectorSize).toNat := by
  rcases hb3 with rfl | rfl | rfl
  · rw [show (divRoundUp (3840 : Int) SectorSize).toNat = 30 from by decide]
    unfold SectorSize
    omega
  · rw [show (divRoundUp (115200 : Int) SectorSize).toNat = 900 from by decide]
    unfold SectorSize
    omega
  · rw [show (divRoundUp (3456000 : Int) SectorSize).toNat = 27000 from by decide]
    unfold SectorSize
    omega

/-- A successful `Allocate` stores `fileSize` and
`divRoundUp(fileSize, SectorSize)` in the header (filehdr.cc lines 76-77),
whatever else happens. -/
theorem AllocateF_fields (fuel : Nat) : ∀ fm fs r hdr fm',
    AllocateF fuel fm fs = .ok (r, hdr, fm') →
    hdr.numBytes = fs ∧ hdr.numSectors = divRoundUp fs SectorSize := by
  induction fuel with
  | zero => intro fm fs r hdr fm' h; cases h
  | succ n ih =>
    intro fm fs r hdr fm' h
    unfold AllocateF at h
    by_cases h1 : (bmNumClear fm : Int) < divRoundUp fs SectorSize
    · simp only [h1, if_true] at h; cases h; exact ⟨rfl, rfl⟩
    · simp only [h1, if_false] at h
      by_cases h2 : fs > Level2
      · simp only [h2, if_true] at h
        have hres := allocLoopF_ok_chunks (AllocateF n)
          (fun fmx s rx hx fmy hh => (ih fmx s rx hx fmy hh).1)
          (AllocateF_mono n) (boundOf fs) fs (divRoundUp fs SectorSize)
          (boundOf_pos fs) _ _ _ _ _ _ _ _ _ _ h
        exact ⟨hres.2.1, hres.2.2.1⟩
      · simp only [h2, if_false] at h
        cases hd : allocDirectF (divRoundUp fs SectorSize).toNat fm 0
          (List.replicate NumDirect (-1)) with
        | error e => rw [hd] at h; cases h
        | ok v =>
          obtain ⟨ds, fmd⟩ := v
          rw [hd] at h
          cases h
          exact ⟨rfl, rfl⟩

/-- Main correctness invariant of a fully successful `Allocate` run (the
ghost `allOk` flag true): the tree holds exactly `ceil(fileSize/SectorSize)`
leaf data sectors in byte order, and for every in-range offset
`ByteToSector` returns the leaf sector whose byte range contains the
offset — a sector that was clear before the `Allocate` call and is
allocated after it. -/
theorem AllocateF_main (fuel : Nat) : ∀ fm fs r hdr fm',
    AllocateF fuel fm fs = .ok (r, hdr, fm') → hdr.allOk = true →
    (leafSectorsF fuel hdr).length = (divRoundUp fs SectorSize).toNat ∧
    (∀ k : Int, 0 ≤ k → k < fs →
      ∃ s, ByteToSectorF fuel hdr k = some s ∧
        (leafSectorsF fuel hdr).get? ((k / SectorSize).toNat) = some s ∧
        bmTest fm s = false ∧ bmTest fm' s = true) := by
  induction fuel with
  | zero => intro fm fs r hdr fm' h; cases h
  | succ n ih =>
    intro fm fs r hdr fm' h hok
    unfold AllocateF at h
    by_cases h1 : (bmNumClear fm : Int) < divRoundUp fs SectorSize
    · simp only [h1, if_true] at h
      cases h
      cases hok
    · simp only [h1, if_false] at h
      by_cases h2 : fs > Level2
      · -- indirect case
        simp only [h2, if_true] at h
        obtain ⟨hr', hnb, hns, newSubs, hsubs, hmap, hokinit, hch⟩ :=
          allocLoopF_ok_chunks (AllocateF n)
            (fun fmx s rx hx fmy hh => (AllocateF_fields n fmx s rx hx fmy hh).1)
            (AllocateF_mono n) (boundOf fs) fs (divRoundUp fs SectorSize)
            (boundOf_pos fs) _ _ _ _ _ _ _ _ _ _ h
        rw [List.nil_append] at hsubs
        have hb : 0 < boundOf fs := boundOf_pos fs
        have hfs0 : 0 < fs := by
          have : (0 : Int) < Level2 := by decide
          omega
        -- every member of newSubs comes from a fully successful run
        have hmem : ∀ sub ∈ newSubs, ∃ sz fmA rB fmB,
            AllocateF n fmA sz = .ok (rB, sub, fmB) ∧ sub.allOk = true ∧
            sub.numBytes = sz := by
          intro sub hs
          obtain ⟨j, hj⟩ := List.mem_iff_get?.mp hs
          have hjlen : j < newSubs.length := by
            by_contra hcon
            rw [List.get?_eq_none.mpr (by omega)] at hj
            cases hj
          obtain ⟨sub', fmA, rB, fmB, hget', hrun, hsubok, _, _⟩ :=
            hch j (Or.inr hjlen)
          rw [hj] at hget'
          cases hget'
          exact ⟨_, fmA, rB, fmB, hrun, hsubok hok,
            (AllocateF_fields n _ _ _ _ _ hrun).1⟩
        have hind : hdr.numBytes > Level2 := by rw [hnb]; exact h2
        have hleafL : leafSectorsF (n + 1) hdr = (newSubs.map (leafSectorsF n)).flatten := by
          rw [leafSectorsF_indirect n hdr hind, hsubs]
        have hlenhyp : ∀ sub ∈ newSubs,
            (leafSectorsF n sub).length = (divRoundUp sub.numBytes SectorSize).toNat := by
          intro sub hs
          obtain ⟨sz, fmA, rB, fmB, hrun, hsok, hnb'⟩ := hmem sub hs
          rw [hnb']
          exact (ih fmA sz rB sub fmB hrun hsok).1
        have hsum := chunks_len_sum (boundOf fs) hb (boundOf_mod fs) fs.toNat fs
          le_rfl newSubs (fun sub => (leafSectorsF n sub).length) hmap hlenhyp
        have hlenEq : (leafSectorsF (n + 1) hdr).length
            = (divRoundUp fs SectorSize).toNat := by
          rw [hleafL, List.length_flatten, List.map_map]
          rw [show List.map (List.length ∘ leafSectorsF n) newSubs
            = newSubs.map (fun sub => (leafSectorsF n sub).length) from rfl]
          rw [hsum, if_pos hfs0]
        refine ⟨hlenEq, ?_⟩
        intro k hk0 hkfs
        have hkb0 : 0 ≤ k / boundOf fs := Int.ediv_nonneg hk0 hb.le
        have hjcast : (((k / boundOf fs).toNat : Int)) = k / boundOf fs :=
          Int.toNat_of_nonneg hkb0
        have hdecomp : boundOf fs * (k / boundOf fs) + k % boundOf fs = k :=
          Int.ediv_add_emod k (boundOf fs)
        have hpos0 : 0 ≤ k % boundOf fs := Int.emod_nonneg k (by omega)
        have hposb : k % boundOf fs < boundOf fs := Int.emod_lt_of_pos k hb
        have hjb : (((k / boundOf fs).toNat : Int)) * boundOf fs = k - k % boundOf fs := by
          rw [hjcast, mul_comm]
          linarith [hdecomp]
        have hcond : (((k / boundOf fs).toNat : Int)) * boundOf fs < fs := by
          rw [hjb]; linarith
        obtain ⟨sub, fmA, rB, fmB, hgetj, hrun, hsubokf, hmono1, hmono2⟩ :=
          hch (k / boundOf fs).toNat (Or.inl hcond)
        have hpos_lt : k % boundOf fs <
            (if fs - (((k / boundOf fs).toNat : Int)) * boundOf fs > boundOf fs
             then boundOf fs
             else fs - (((k / boundOf fs).toNat : Int)) * boundOf fs) := by
          split
          · exact hposb
          · rw [hjb]; linarith
        have hIH := ih fmA _ rB sub fmB hrun (hsubokf hok)
        obtain ⟨s, hbts, hleafget, hclearA, hsetB⟩ :=
          hIH.2 (k % boundOf fs) hpos0 hpos_lt
        have hfull : ∀ m : Nat, m < (k / boundOf fs).toNat →
            ((m : Int) * boundOf fs < fs ∧ fs - (m : Int) * boundOf fs > boundOf fs) := by
          intro m hm
          have hm1 : ((m : Int)) + 1 ≤ ((k / boundOf fs).toNat : Int) := by
            exact_mod_cast hm
          have hmul : (((m : Int)) + 1) * boundOf fs
              ≤ (((k / boundOf fs).toNat : Int)) * boundOf fs :=
            mul_le_mul_of_nonneg_right hm1 hb.le
          have hexp : (((m : Int)) + 1) * boundOf fs
              = ((m : Int)) * boundOf fs + boundOf fs := by ring
          constructor
          · nlinarith [hjb, hpos0, hkfs]
          · nlinarith [hjb, hpos0, hkfs]
        refine ⟨s, ?_, ?_, ?_, ?_⟩
        · rw [ByteToSectorF_indirect n hdr k (by omega) hind, hnb, hsubs, hgetj]
          exact hbts
        · rw [hleafL]
          have hE : ∀ m : Nat, m < (k / boundOf fs).toNat →
              ∃ l, (newSubs.map (leafSectorsF n)).get? m = some l ∧
                l.length = (divRoundUp (boundOf fs) SectorSize).toNat := by
            intro m hm
            obtain ⟨hmlt, hmfull⟩ := hfull m hm
            obtain ⟨subm, fmAm, rBm, fmBm, hgetm, hrunm, hsokm, _, _⟩ :=
              hch m (Or.inl hmlt)
            rw [if_pos hmfull] at hrunm
            refine ⟨leafSectorsF n subm, ?_, ?_⟩
            · rw [List.get?_map, hgetm]
              rfl
            · exact (ih fmAm _ rBm subm fmBm hrunm (hsokm hok)).1
          have hidxlt : (k % boundOf fs / SectorSize).toNat
              < (leafSectorsF n sub).length := by
            rw [hIH.1]
            rcases boundOf_cases fs with hbv | hbv | hbv <;>
              rw [hbv] at hpos0 hposb hpos_lt ⊢ <;>
              unfold divRoundUp SectorSize at * <;>
              omega
          have happly := flatten_get?_uniform (divRoundUp (boundOf fs) SectorSize).toNat
            (newSubs.map (leafSectorsF n)) (k / boundOf fs).toNat
            ((k % boundOf fs / SectorSize).toNat) (leafSectorsF n sub)
            (by rw [List.get?_map, hgetj]; rfl) hE hidxlt
          rw [chunk_index_eq (boundOf fs) k (boundOf_cases fs) hk0, happly]
          exact hleafget
        · by_cases hc : bmTest fm s = true
          · have h3 := hmono1 s hc
            rw [h3] at hclearA
            exact Bool.noConfusion hclearA
          · simpa using hc
        · exact hmono2 s hsetB
      · -- direct case
        simp only [h2, if_false] at h
        cases hd : allocDirectF (divRoundUp fs SectorSize).toNat fm 0
          (List.replicate NumDirect (-1)) with
        | error e => rw [hd] at h; cases h
        | ok v =>
          obtain ⟨ds, fmd⟩ := v
          rw [hd] at h
          cases h
          have hdsl : ds.length = NumDirect := by
            rw [allocDirectF_length _ _ _ _ _ _ hd, List.length_replicate]
          have hfs2 : fs ≤ 3840 := by
            unfold Level2 at h2
            omega
          have hnsle : (divRoundUp fs SectorSize).toNat ≤ NumDirect := by
            unfold divRoundUp SectorSize NumDirect
            omega
          have hleafD : leafSectorsF (n + 1)
                (⟨fs, divRoundUp fs SectorSize, ds, [], true⟩ : FileHeader)
              = ds.take (divRoundUp fs SectorSize).toNat := by
            rw [leafSectorsF_direct n _ h2]
          refine ⟨?_, ?_⟩
          · rw [hleafD, List.length_take, hdsl]
            unfold NumDirect at hnsle ⊢
            omega
          · intro k hk0 hkfs
            have hidx : (k / SectorSize).toNat < (divRoundUp fs SectorSize).toNat := by
              unfold divRoundUp SectorSize
              omega
            obtain ⟨s, hget, hs0, hclear, hset⟩ := allocDirectF_claims _ _ _ _ _ _ hd
              (by rw [List.length_replicate]; unfold NumDirect at hnsle ⊢; omega)
              ((k / SectorSize).toNat) hidx
            rw [Nat.zero_add] at hget
            refine ⟨s, ?_, ?_, hclear, hset⟩
            · rw [ByteToSectorF_direct n _ k (by omega) h2]
              exact hget
            · rw [hleafD, List.get?_eq_getElem?, List.getElem?_take, if_pos hidx,
                ← List.get?_eq_getElem?]
              exact hget

/-- Claim C5: if the free map has fewer clear bits than
`divRoundUp(fileSize, SectorSize)` (the ceiling for nonnegative sizes),
`Allocate` returns FALSE with the header fields merely initialised and
the free map returned exactly as it was passed in — no bit set. -/
theorem allocate_fail_leaves_map_unchanged (fm : List Bool) (fs : Int) (hfs : 0 ≤ fs)
    (h : (bmNumClear fm : Int) < divRoundUp fs SectorSize) :
    FileHeader.Allocate fm fs =
      .ok (false, ⟨fs, divRoundUp fs SectorSize, List.replicate NumDirect (-1), [], false⟩, fm) := by
  unfold FileHeader.Allocate AllocateF
  simp [h]

/-- Witness for C5 at a concrete input: an empty free map cannot hold a
128-byte file, and the call reports failure without touching the map. -/
theorem allocate_fail_leaves_map_unchanged_witness :
    FileHeader.Allocate [] 128 =
      .ok (false, ⟨128, 1, List.replicate NumDirect (-1), [], false⟩, []) :=
  allocate_fail_leaves_map_unchanged [] 128 (by decide) (by decide)

/-- For a header populated by a FULLY successful `Allocate` (ghost flag
`allOk` — a condition the C code never checks, since the recursive
return values are discarded), `ByteToSector` at any in-range offset follows the
recursion of the code (direct table lookup, or sub-header recursion with
the threshold selected from `numBytes` exactly as in `Allocate`) and
returns precisely the data sector claimed during `Allocate` for the byte
range containing the offset — the `(offset/SectorSize)`-th leaf sector in
allocation order — a sector clear before and allocated after the call. -/
theorem ByteToSector_returns_claimed_sector (fm : List Bool) (fs : Int) (r : Bool)
    (hdr : FileHeader) (fm' : List Bool)
    (h : FileHeader.Allocate fm fs = .ok (r, hdr, fm')) (hok : hdr.allOk = true)
    (k : Int) (hk0 : 0 ≤ k) (hk : k < fs) :
    ∃ s, hdr.ByteToSector k = some s ∧
      hdr.leafSectors.get? ((k / SectorSize).toNat) = some s ∧
      bmTest fm s = false ∧ bmTest fm' s = true := by
  unfold FileHeader.Allocate at h
  have hnb := (AllocateF_fields _ _ _ _ _ _ h).1
  have hres := (AllocateF_main (lvlOf fs + 1) fm fs r hdr fm' h hok).2 k hk0 hk
  unfold FileHeader.ByteToSector FileHeader.leafSectors
  rw [hnb]
  exact hres

/-- Concrete instance of the full-success case: a 100-byte file allocated
from a two-sector clear map claims sector 0, and offset 0 maps back to it. -/
theorem ByteToSector_returns_claimed_sector_witness :
    ∃ s, FileHeader.ByteToSector
        ⟨100, 1, (List.replicate NumDirect (-1)).set 0 0, [], true⟩ 0 = some s ∧
      (FileHeader.leafSectors
        ⟨100, 1, (List.replicate NumDirect (-1)).set 0 0, [], true⟩).get?
          (((0 : Int) / SectorSize).toNat) = some s ∧
      bmTest (List.replicate 2 false) s = false ∧ bmTest [true, false] s = true :=
  ByteToSector_returns_claimed_sector (List.replicate 2 false) 100 true
    ⟨100, 1, (List.replicate NumDirect (-1)).set 0 0, [], true⟩ [true, false]
    (by rfl) (by rfl) 0 (by decide) (by decide)

/-- Claim C9: the model of `Allocate` is total (its fuel never runs out),
and in the indirect case the loop runs exactly
`ceil(fileSize/bound)` iterations — the remaining size falls by the fixed
positive `bound` each iteration, the final subtraction overshooting below
zero — while every recursive call receives a positive size that is at
most the next-lower threshold `bound` and strictly smaller than
`fileSize`; on success the sub-header sizes are exactly the chunk list. -/
theorem allocate_terminates (fs : Int) (hfs : 0 ≤ fs) :
    (∀ fm, FileHeader.Allocate fm fs ≠ .error .outOfFuel) ∧
    (Level2 < fs →
      (0 < boundOf fs ∧ boundOf fs < fs) ∧
      ((chunkSizes (boundOf fs) fs).length : Int) = divRoundUp fs (boundOf fs) ∧
      (∀ c ∈ chunkSizes (boundOf fs) fs, 0 < c ∧ c ≤ boundOf fs ∧ c < fs) ∧
      (∀ fm hdr fm', FileHeader.Allocate fm fs = .ok (true, hdr, fm') →
        hdr.subs.map FileHeader.numBytes = chunkSizes (boundOf fs) fs)) := by
  constructor
  · intro fm
    exact AllocateF_no_fuel (lvlOf fs + 1) fm fs (by omega)
  · intro h2
    have hb := boundOf_pos fs
    refine ⟨⟨hb, boundOf_lt fs h2⟩, ?_, ?_, ?_⟩
    · rw [chunkSizes_length (boundOf fs) hb fs,
        if_pos (show 0 < fs from lt_trans (by decide) h2)]
    · intro c hc
      obtain ⟨hc1, hc2⟩ := chunkSizes_mem (boundOf fs) hb fs c hc
      exact ⟨hc1, hc2, lt_of_le_of_lt hc2 (boundOf_lt fs h2)⟩
    · intro fm hdr fm' h
      unfold FileHeader.Allocate AllocateF at h
      by_cases h1 : (bmNumClear fm : Int) < divRoundUp fs SectorSize
      · simp only [h1, if_true] at h
        cases h
      · simp only [h1, if_false, show fs > Level2 from h2, if_true] at h
        obtain ⟨_, _, _, newSubs, hsubs, hmap, _, _⟩ :=
          allocLoopF_ok_chunks (AllocateF (lvlOf fs))
            (fun fmx s rx hx fmy hh => (AllocateF_fields _ fmx s rx hx fmy hh).1)
            (AllocateF_mono _) (boundOf fs) fs (divRoundUp fs SectorSize)
            hb _ _ _ _ _ _ _ _ _ _ h
        rw [hsubs, List.nil_append]
        exact hmap

/-- Witness for C9 at a concrete input: a 4000-byte file uses bound 3840
and exactly two chunks. -/
theorem allocate_terminates_witness :
    ((chunkSizes (boundOf 4000) 4000).length : Int) = divRoundUp 4000 (boundOf 4000) :=
  ((allocate_terminates 4000 (by decide)).2 (by decide)).2.1

/-- Claim C1 (counter-evidence): allocating a 3841-byte file (indirect,
two sub-headers) from a 40-sector all-clear map claims sectors 0 and 31
for the two sub-headers and sectors 1..30 and 32 for data; `Deallocate`
then clears every data sector (1 and 32 shown) but leaves the sub-header
sectors 0 and 31 still marked allocated — the indirect branch of
`FileHeader::Deallocate` never calls `freeMap->Clear(dataSectors[i])`. -/
theorem deallocate_leaks_subheader_sectors :
    (match FileHeader.Allocate (List.replicate 40 false) 3841 with
     | .ok (true, hdr, fm1) =>
       (match hdr.Deallocate fm1 with
        | some fm2 => some (bmTest fm2 0, bmTest fm2 31, bmTest fm2 1, bmTest fm2 32)
        | none => none)
     | _ => none) = some (true, true, false, false) := by decide

/-- Claim C6: `FindNextToRun` removes and returns the front thread of
the lowest-indexed non-empty queue (L1 before L2 before L3) — so no
thread of a lower band is returned while a higher band is non-empty —
adds `now - ReadyStartTime` to the returned thread's `TimeInReadyQueue`,
and returns none exactly when all three queues are empty. -/
theorem FindNextToRun_spec (now : Int) (st : SchedState) :
    ((FindNextToRun now st).1 = none ↔ st.l1 = [] ∧ st.l2 = [] ∧ st.l3 = []) ∧
    (∀ t rest, st.l1 = t :: rest →
      FindNextToRun now st =
        (some { t with TimeInReadyQueue := t.TimeInReadyQueue + (now - t.ReadyStartTime) },
         { st with l1 := rest })) ∧
    (st.l1 = [] → ∀ t rest, st.l2 = t :: rest →
      FindNextToRun now st =
        (some { t with TimeInReadyQueue := t.TimeInReadyQueue + (now - t.ReadyStartTime) },
         { st with l2 := rest })) ∧
    (st.l1 = [] → st.l2 = [] → ∀ t rest, st.l3 = t :: rest →
      FindNextToRun now st =
        (some { t with TimeInReadyQueue := t.TimeInReadyQueue + (now - t.ReadyStartTime) },
         { st with l3 := rest })) := by
  obtain ⟨l1, l2, l3, pre⟩ := st
  cases l1 with
  | cons t rest => simp [FindNextToRun]
  | nil =>
    cases l2 with
    | cons t rest => simp [FindNextToRun]
    | nil =>
      cases l3 with
      | cons t rest => simp [FindNextToRun]
      | nil => simp [FindNextToRun]

/-- Witness for C6 at a concrete input: with L1 empty and one thread in
L2, that thread is removed, returned, and charged its waiting time. -/
theorem FindNextToRun_spec_witness :
    FindNextToRun 30 ⟨[], [⟨7, 60, 5, 0, 0⟩], [], false⟩ =
      (some ⟨7, 60, 5, 0, 30⟩, ⟨[], [], [], false⟩) :=
  (FindNextToRun_spec 30 ⟨[], [⟨7, 60, 5, 0, 0⟩], [], false⟩).2.2.1 rfl
    ⟨7, 60, 5, 0, 0⟩ [] rfl

/-- Claim C7: across one aging step the preemption flag is set exactly
when it was already set, or the thread is promoted into L1 and the
current thread has priority below 100 or has priority at least 100 with a
longer predicted burst, or the thread is promoted into L2 and the current
thread has priority below 50; in every other case (including the
L3 re-insertion) the flag is left unchanged. -/
theorem aging_preempt_flag (now : Int) (cur : Thread) (which : QueueId)
    (st : SchedState) (t : Thread) :
    (agingThread now cur which st t).preemptive = true ↔
      (st.preemptive = true ∨
        (eligible now t ∧
          (((promote now t).priority ≥ 100 ∧
              (cur.priority < 100 ∨
                (cur.priority ≥ 100 ∧ cur.predictTime > (promote now t).predictTime))) ∨
            ((promote now t).priority < 100 ∧ (promote now t).priority ≥ 50 ∧
              cur.priority < 50)))) := by
  have hrm : (removeThread which st t).preemptive = st.preemptive := by
    unfold removeThread
    cases which <;> rfl
  unfold agingThread
  by_cases he : eligible now t
  · simp only [he, if_true, true_and]
    by_cases hp1 : (promote now t).priority ≥ 100
    · simp only [hp1, if_true]
      by_cases hc1 : cur.priority < 100
      · simp only [hc1, if_true]
        simp [hrm, hp1, hc1]
      · by_cases hc2 : cur.priority ≥ 100 ∧ cur.predictTime > (promote now t).predictTime
        · simp only [hc1, if_false, hc2, if_true]
          simp [hrm, hp1, hc2]
        · simp only [hc1, if_false, hc2, if_false]
          simp only [hrm]
          have hnot : ¬(promote now t).priority < 100 := by omega
          simp [hc1, hc2, hnot]
    · simp only [hp1, if_false]
      by_cases hp2 : (promote now t).priority ≥ 50
      · simp only [hp2, if_true]
        by_cases hc3 : cur.priority < 50
        · simp only [hc3, if_true]
          simp [hrm, hp1, hp2, hc3]
          omega
        · simp only [hc3, if_false, hrm]
          simp [hp1, hc3]
      · simp only [hp2, if_false]
        simp only [hrm]
        simp [hp1, hp2]
  · simp only [he, if_false]
    simp [he]

/-! Machinery for the aging pass (claims C3 and C8). -/

theorem sortedInsert_perm (cmp : Thread → Thread → Int) (t : Thread) :
    ∀ l : List Thread, (sortedInsert cmp t l).Perm (t :: l) := by
  intro l
  induction l with
  | nil => simp [sortedInsert]
  | cons e es ih =>
    unfold sortedInsert
    by_cases hc : cmp t e < 0
    · simp [hc]
    · simp only [hc, if_false]
      exact (ih.cons e).trans (List.Perm.swap t e es)

theorem mem_sortedInsert (cmp : Thread → Thread → Int) (t : Thread)
    (l : List Thread) (u : Thread) :
    u ∈ sortedInsert cmp t l ↔ u = t ∨ u ∈ l := by
  rw [(sortedInsert_perm cmp t l).mem_iff]
  simp

theorem queueOf_removeThread (q which : QueueId) (st : SchedState) (t : Thread) :
    queueOf q (removeThread which st t) =
      if q = which then (queueOf q st).eraseP (fun e => e.id == t.id)
      else queueOf q st := by
  cases q <;> cases which <;> simp [removeThread, queueOf]

theorem queueOf_setPreempt (q : QueueId) (st : SchedState) (b : Bool) :
    queueOf q { st with preemptive := b } = queueOf q st := by
  cases q <;> rfl

theorem queueOf_ite (q : QueueId) (c : Prop) [Decidable c] (s1 s2 : SchedState) :
    queueOf q (if c then s1 else s2) = if c then queueOf q s1 else queueOf q s2 := by
  split <;> rfl

theorem promote_id (now : Int) (t : Thread) : (promote now t).id = t.id := rfl

theorem promote_priority_bounds (now : Int) (t : Thread) (he : eligible now t) :
    0 ≤ (promote now t).priority ∧ (promote now t).priority ≤ 149 := by
  obtain ⟨⟨h0, _⟩, _⟩ := he
  unfold promote
  simp only
  split <;> omega

/-- Erasing by id from a queue with distinct ids removes exactly the
occurrences of that id, and nothing else. -/
theorem erase_unique_decomp (l : List Thread) (t : Thread)
    (hnd : (l.map Thread.id).Nodup) (ht : t ∈ l) :
    (∀ u ∈ l.eraseP (fun e => e.id == t.id), u.id ≠ t.id) ∧
    (∀ u ∈ l, u.id ≠ t.id → u ∈ l.eraseP (fun e => e.id == t.id)) := by
  obtain ⟨a', l₁, l₂, hnomatch, hpa, hl, herase⟩ :=
    @List.exists_of_eraseP _ (fun e => e.id == t.id) _ _ ht (beq_self_eq_true t.id)
  have ha' : a'.id = t.id := by simpa using hpa
  have hnd' := hnd
  rw [hl, List.map_append, List.map_cons, List.nodup_append] at hnd'
  obtain ⟨hnd1, hnd2, hdisj⟩ := hnd'
  have hnotin : a'.id ∉ l₂.map Thread.id := (List.nodup_cons.mp hnd2).1
  constructor
  · intro u hu hequ
    rw [herase] at hu
    rcases List.mem_append.mp hu with hu | hu
    · have := hnomatch u hu
      simp [hequ] at this
    · exact hnotin (by rw [ha']; exact List.mem_map.mpr ⟨u, hu, hequ⟩)
  · intro u hu hne
    rw [herase]
    rw [hl] at hu
    rcases List.mem_append.mp hu with hu | hu
    · exact List.mem_append.mpr (Or.inl hu)
    · rcases List.mem_cons.mp hu with rfl | hu
      · exact absurd ha' hne
      · exact List.mem_append.mpr (Or.inr hu)

theorem idsOf_eq (st : SchedState) :
    idsOf st = st.l1.map Thread.id ++ st.l2.map Thread.id ++ st.l3.map Thread.id := by
  unfold idsOf
  simp

theorem distinct_queue (st : SchedState) (hdist : DistinctIds st) (q : QueueId) :
    ((queueOf q st).map Thread.id).Nodup := by
  unfold DistinctIds at hdist
  rw [idsOf_eq, List.nodup_append, List.nodup_append] at hdist
  cases q <;> simp [queueOf] <;> tauto

theorem distinct_cross (st : SchedState) (hdist : DistinctIds st) :
    ∀ q q' : QueueId, q ≠ q' → ∀ u ∈ queueOf q st, ∀ v ∈ queueOf q' st,
      u.id ≠ v.id := by
  unfold DistinctIds at hdist
  rw [idsOf_eq, List.nodup_append, List.nodup_append] at hdist
  obtain ⟨⟨h1, h2, h12⟩, h3, h123⟩ := hdist
  intro q q' hne u hu v hv hequ
  have key : ∀ (a b : List Thread), List.Disjoint (a.map Thread.id) (b.map Thread.id) →
      ∀ x ∈ a, ∀ y ∈ b, x.id ≠ y.id := by
    intro a b hd x hx y hy he
    exact hd (List.mem_map.mpr ⟨x, hx, rfl⟩) (by rw [he]; exact List.mem_map.mpr ⟨y, hy, rfl⟩)
  have h12' : ∀ x ∈ st.l1, ∀ y ∈ st.l2, x.id ≠ y.id := key _ _ h12
  have h13' : ∀ x ∈ st.l1, ∀ y ∈ st.l3, x.id ≠ y.id := by
    intro x hx y hy he
    have hxm : x.id ∈ st.l1.map Thread.id ++ st.l2.map Thread.id :=
      List.mem_append.mpr (Or.inl (List.mem_map.mpr ⟨x, hx, rfl⟩))
    have hym : x.id ∈ st.l3.map Thread.id := by
      rw [he]
      exact List.mem_map.mpr ⟨y, hy, rfl⟩
    exact h123 hxm hym
  have h23' : ∀ x ∈ st.l2, ∀ y ∈ st.l3, x.id ≠ y.id := by
    intro x hx y hy he
    have hxm : x.id ∈ st.l1.map Thread.id ++ st.l2.map Thread.id :=
      List.mem_append.mpr (Or.inr (List.mem_map.mpr ⟨x, hx, rfl⟩))
    have hym : x.id ∈ st.l3.map Thread.id := by
      rw [he]
      exact List.mem_map.mpr ⟨y, hy, rfl⟩
    exact h123 hxm hym
  cases q <;> cases q' <;> simp [queueOf] at hu hv <;> first
    | exact absurd rfl hne
    | exact h12' u hu v hv hequ
    | exact h13' u hu v hv hequ
    | exact h23' u hu v hv hequ
    | exact h12' v hv u hu hequ.symm
    | exact h13' v hv u hu hequ.symm
    | exact h23' v hv u hu hequ.symm

theorem bandOf_q1 (p : Int) (h : bandOf p = .q1) : 100 ≤ p := by
  unfold bandOf at h
  split_ifs at h <;> first | (exact absurd h (by decide)) | omega

theorem bandOf_q2 (p : Int) (h : bandOf p = .q2) : 50 ≤ p ∧ p < 100 := by
  unfold bandOf at h
  split_ifs at h <;> first | (exact absurd h (by decide)) | omega

theorem bandOf_q3 (p : Int) (h : bandOf p = .q3) : p < 50 := by
  unfold bandOf at h
  split_ifs at h <;> first | (exact absurd h (by decide)) | omega

/-- Common consequences of one eligible aging step, abstracted over the
post-removal state `st1` and the final state `stF`. -/
theorem aging_step_aux (st st1 stF : SchedState) (t tP : Thread) (T : QueueId)
    (hid : tP.id = t.id)
    (hband : BandInv st)
    (hdist1 : DistinctIds st1)
    (hafter_no : ∀ q, ∀ u ∈ queueOf q st1, u.id ≠ t.id)
    (hsub1 : ∀ q, ∀ u ∈ queueOf q st1, u ∈ queueOf q st)
    (hback1 : ∀ q, ∀ u ∈ queueOf q st, u.id ≠ t.id → u ∈ queueOf q st1)
    (hb : bandOf tP.priority = T)
    (hpb : 0 ≤ tP.priority ∧ tP.priority ≤ 149)
    (hmemF : ∀ q u, u ∈ queueOf q stF ↔ (q = T ∧ u = tP) ∨ u ∈ queueOf q st1)
    (hperm : (idsOf stF).Perm (t.id :: idsOf st1)) :
    BandInv stF ∧ DistinctIds stF ∧
    tP ∈ queueOf (bandOf tP.priority) stF ∧
    (∀ q u, u ∈ queueOf q stF → u.id = t.id → q = bandOf tP.priority ∧ u = tP) ∧
    (∀ q u, u ∈ queueOf q stF → u.id ≠ t.id → u ∈ queueOf q st) ∧
    (∀ q u, u ∈ queueOf q st → u.id ≠ t.id → u ∈ queueOf q stF) := by
  have htid_not : t.id ∉ idsOf st1 := by
    rw [idsOf_eq]
    intro hin
    simp only [List.mem_append, List.mem_map] at hin
    rcases hin with (⟨u, hu, hequ⟩ | ⟨u, hu, hequ⟩) | ⟨u, hu, hequ⟩
    · exact hafter_no .q1 u hu hequ
    · exact hafter_no .q2 u hu hequ
    · exact hafter_no .q3 u hu hequ
  refine ⟨⟨?_, ?_, ?_⟩, ?_, ?_, ?_, ?_, ?_⟩
  · intro u hu
    rcases (hmemF .q1 u).mp hu with ⟨hT, rfl⟩ | hu1
    · have := bandOf_q1 u.priority (hb.trans hT.symm)
      exact ⟨this, hpb.2⟩
    · exact hband.1 u (hsub1 .q1 u hu1)
  · intro u hu
    rcases (hmemF .q2 u).mp hu with ⟨hT, rfl⟩ | hu1
    · have := bandOf_q2 u.priority (hb.trans hT.symm)
      omega
    · exact hband.2.1 u (hsub1 .q2 u hu1)
  · intro u hu
    rcases (hmemF .q3 u).mp hu with ⟨hT, rfl⟩ | hu1
    · have := bandOf_q3 u.priority (hb.trans hT.symm)
      omega
    · exact hband.2.2 u (hsub1 .q3 u hu1)
  · unfold DistinctIds
    rw [hperm.nodup_iff, List.nodup_cons]
    exact ⟨htid_not, hdist1⟩
  · rw [hb]
    exact (hmemF T tP).mpr (Or.inl ⟨rfl, rfl⟩)
  · intro q u hu hequ
    rcases (hmemF q u).mp hu with ⟨hT, rfl⟩ | hu1
    · rw [hb]
      exact ⟨hT, rfl⟩
    · exact absurd hequ (hafter_no q u hu1)
  · intro q u hu hne
    rcases (hmemF q u).mp hu with ⟨hT, rfl⟩ | hu1
    · exact absurd hid hne
    · exact hsub1 q u hu1
  · intro q u hu hne
    exact (hmemF q u).mpr (Or.inr (hback1 q u hu hne))

theorem idsOf_queues (st : SchedState) :
    idsOf st = (queueOf .q1 st).map Thread.id ++ (queueOf .q2 st).map Thread.id
      ++ (queueOf .q3 st).map Thread.id := by
  rw [idsOf_eq]
  rfl

/-- One aging-loop iteration on an eligible thread `t` of queue `which`
in a well-formed state: the updated thread moves to the queue of its new
band, its id occurs nowhere else, every other thread is untouched, and
the band and distinctness invariants are preserved. -/
theorem agingThread_step (now : Int) (cur : Thread) (which : QueueId)
    (st : SchedState) (t : Thread)
    (hband : BandInv st) (hdist : DistinctIds st)
    (hmem : t ∈ queueOf which st) (he : eligible now t) :
    BandInv (agingThread now cur which st t) ∧
    DistinctIds (agingThread now cur which st t) ∧
    promote now t ∈ queueOf (bandOf (promote now t).priority)
      (agingThread now cur which st t) ∧
    (∀ q u, u ∈ queueOf q (agingThread now cur which st t) → u.id = t.id →
      q = bandOf (promote now t).priority ∧ u = promote now t) ∧
    (∀ q u, u ∈ queueOf q (agingThread now cur which st t) → u.id ≠ t.id →
      u ∈ queueOf q st) ∧
    (∀ q u, u ∈ queueOf q st → u.id ≠ t.id →
      u ∈ queueOf q (agingThread now cur which st t)) := by
  obtain ⟨hafterW, hbackW⟩ :=
    erase_unique_decomp (queueOf which st) t (distinct_queue st hdist which) hmem
  have hq1 : ∀ q, queueOf q (removeThread which st t) =
      if q = which then (queueOf q st).eraseP (fun e => e.id == t.id)
      else queueOf q st := fun q => queueOf_removeThread q which st t
  have hafter_no : ∀ q, ∀ u ∈ queueOf q (removeThread which st t), u.id ≠ t.id := by
    intro q u hu
    rw [hq1 q] at hu
    by_cases hqw : q = which
    · rw [if_pos hqw] at hu
      subst hqw
      exact hafterW u hu
    · rw [if_neg hqw] at hu
      exact fun hequ => distinct_cross st hdist q which hqw u hu t hmem hequ
  have hsub1 : ∀ q, ∀ u ∈ queueOf q (removeThread which st t), u ∈ queueOf q st := by
    intro q u hu
    rw [hq1 q] at hu
    by_cases hqw : q = which
    · rw [if_pos hqw] at hu
      exact (List.eraseP_sublist _).subset hu
    · rwa [if_neg hqw] at hu
  have hback1 : ∀ q, ∀ u ∈ queueOf q st, u.id ≠ t.id →
      u ∈ queueOf q (removeThread which st t) := by
    intro q u hu hne
    rw [hq1 q]
    by_cases hqw : q = which
    · rw [if_pos hqw]
      subst hqw
      exact hbackW u hu hne
    · rwa [if_neg hqw]
  have hdist1 : DistinctIds (removeThread which st t) := by
    unfold DistinctIds at hdist ⊢
    refine List.Nodup.sublist ?_ hdist
    rw [idsOf_eq, idsOf_eq]
    cases which <;> simp only [removeThread] <;>
      first
      | exact (((List.eraseP_sublist _).map _).append (List.Sublist.refl _)).append
          (List.Sublist.refl _)
      | exact ((List.Sublist.refl _).append ((List.eraseP_sublist _).map _)).append
          (List.Sublist.refl _)
      | exact ((List.Sublist.refl _).append (List.Sublist.refl _)).append
          ((List.eraseP_sublist _).map _)
  have hpb := promote_priority_bounds now t he
  by_cases h1 : (promote now t).priority ≥ 100
  · have hb : bandOf (promote now t).priority = .q1 := by
      unfold bandOf
      rw [if_pos h1]
    have hqs1 : queueOf .q1 (agingThread now cur which st t)
        = sortedInsert Timecmp (promote now t)
            (queueOf .q1 (removeThread which st t)) := by
      unfold agingThread
      rw [if_pos he]
      simp only [h1, if_true]
      split_ifs <;> rfl
    have hqs2 : queueOf .q2 (agingThread now cur which st t)
        = queueOf .q2 (removeThread which st t) := by
      unfold agingThread
      rw [if_pos he]
      simp only [h1, if_true]
      split_ifs <;> rfl
    have hqs3 : queueOf .q3 (agingThread now cur which st t)
        = queueOf .q3 (removeThread which st t) := by
      unfold agingThread
      rw [if_pos he]
      simp only [h1, if_true]
      split_ifs <;> rfl
    refine aging_step_aux st (removeThread which st t)
      (agingThread now cur which st t) t (promote now t) .q1
      (promote_id now t) hband hdist1 hafter_no hsub1 hback1 hb hpb ?_ ?_
    · intro q u
      cases q
      · rw [hqs1, mem_sortedInsert]
        simp
      · rw [hqs2]
        simp
      · rw [hqs3]
        simp
    · rw [idsOf_queues, idsOf_queues, hqs1, hqs2, hqs3]
      refine (List.Perm.append (List.Perm.append
        ((sortedInsert_perm Timecmp (promote now t) _).map Thread.id)
        (List.Perm.refl _)) (List.Perm.refl _)).trans ?_
      simp only [List.map_cons, promote_id, List.cons_append]
      exact List.Perm.refl _
  · by_cases h2 : (promote now t).priority ≥ 50
    · have hb : bandOf (promote now t).priority = .q2 := by
        unfold bandOf
        rw [if_neg h1, if_pos h2]
      have hqs1 : queueOf .q1 (agingThread now cur which st t)
          = queueOf .q1 (removeThread which st t) := by
        unfold agingThread
        rw [if_pos he]
        simp only [h1, if_false, h2, if_true]
        split_ifs <;> rfl
      have hqs2 : queueOf .q2 (agingThread now cur which st t)
          = sortedInsert Pricmp (promote now t)
              (queueOf .q2 (removeThread which st t)) := by
        unfold agingThread
        rw [if_pos he]
        simp only [h1, if_false, h2, if_true]
        split_ifs <;> rfl
      have hqs3 : queueOf .q3 (agingThread now cur which st t)
          = queueOf .q3 (removeThread which st t) := by
        unfold agingThread
        rw [if_pos he]
        simp only [h1, if_false, h2, if_true]
        split_ifs <;> rfl
      refine aging_step_aux st (removeThread which st t)
        (agingThread now cur which st t) t (promote now t) .q2
        (promote_id now t) hband hdist1 hafter_no hsub1 hback1 hb hpb ?_ ?_
      · intro q u
        cases q
        · rw [hqs1]
          simp
        · rw [hqs2, mem_sortedInsert]
          simp
        · rw [hqs3]
          simp
      · rw [idsOf_queues, idsOf_queues, hqs1, hqs2, hqs3]
        refine (List.Perm.append (List.Perm.append (List.Perm.refl _)
          ((sortedInsert_perm Pricmp (promote now t) _).map Thread.id))
          (List.Perm.refl _)).trans ?_
        simp only [List.map_cons, promote_id]
        refine (List.Perm.append List.perm_middle (List.Perm.refl _)).trans ?_
        simp only [List.cons_append]
        exact List.Perm.refl _
    · have hb : bandOf (promote now t).priority = .q3 := by
        unfold bandOf
        rw [if_neg h1, if_neg h2]
      have hqs1 : queueOf .q1 (agingThread now cur which st t)
          = queueOf .q1 (removeThread which st t) := by
        unfold agingThread
        rw [if_pos he]
        simp only [h1, if_false, h2, if_false]
        rfl
      have hqs2 : queueOf .q2 (agingThread now cur which st t)
          = queueOf .q2 (removeThread which st t) := by
        unfold agingThread
        rw [if_pos he]
        simp only [h1, if_false, h2, if_false]
        rfl
      have hqs3 : queueOf .q3 (agingThread now cur which st t)
          = queueOf .q3 (removeThread which st t) ++ [promote now t] := by
        unfold agingThread
        rw [if_pos he]
        simp only [h1, if_false, h2, if_false]
        rfl
      refine aging_step_aux st (removeThread which st t)
        (agingThread now cur which st t) t (promote now t) .q3
        (promote_id now t) hband hdist1 hafter_no hsub1 hback1 hb hpb ?_ ?_
      · intro q u
        cases q
        · rw [hqs1]
          simp
        · rw [hqs2]
          simp
        · rw [hqs3]
          simp [List.mem_append]
          tauto
      · rw [idsOf_queues, idsOf_queues, hqs1, hqs2, hqs3]
        simp only [List.map_append, List.map_cons, List.map_nil, promote_id]
        refine (List.Perm.append (List.Perm.refl _)
          (List.perm_append_singleton _ _)).trans ?_
        refine List.perm_middle.trans ?_
        exact List.Perm.refl _

theorem unique_occurrence (st : SchedState) (hdist : DistinctIds st)
    (q : QueueId) (t : Thread) (hmem : t ∈ queueOf q st) :
    ∀ q' u, u ∈ queueOf q' st → u.id = t.id → q' = q ∧ u = t := by
  intro q' u hu hequ
  by_cases hqq : q' = q
  · subst hqq
    exact ⟨rfl, List.inj_on_of_nodup_map (distinct_queue st hdist q') hu hmem hequ⟩
  · exact absurd hequ (distinct_cross st hdist q' q hqq u hu t hmem)

/-- The aging loop over a snapshot `todo` of threads of queue `which`:
eligible threads are promoted and re-queued exactly once, every other id
keeps exactly its old occurrences, and the invariants are preserved. -/
theorem aging_fold (now : Int) (cur : Thread) (which : QueueId) :
    ∀ (todo : List Thread) (st : SchedState),
    BandInv st → DistinctIds st →
    (∀ t ∈ todo, t ∈ queueOf which st) →
    (todo.map Thread.id).Nodup →
    BandInv (todo.foldl (agingThread now cur which) st) ∧
    DistinctIds (todo.foldl (agingThread now cur which) st) ∧
    (∀ t ∈ todo, eligible now t →
      promote now t ∈ queueOf (bandOf (promote now t).priority)
        (todo.foldl (agingThread now cur which) st) ∧
      (∀ q u, u ∈ queueOf q (todo.foldl (agingThread now cur which) st) →
        u.id = t.id → q = bandOf (promote now t).priority ∧ u = promote now t)) ∧
    (∀ t ∈ todo, ¬eligible now t → ∀ q u, u.id = t.id →
      (u ∈ queueOf q (todo.foldl (agingThread now cur which) st) ↔
        u ∈ queueOf q st)) ∧
    (∀ i : Nat, i ∉ todo.map Thread.id → ∀ q u, u.id = i →
      (u ∈ queueOf q (todo.foldl (agingThread now cur which) st) ↔
        u ∈ queueOf q st)) := by
  intro todo
  induction todo with
  | nil =>
    intro st hband hdist hsubq hnd
    simp only [List.foldl_nil]
    refine ⟨hband, hdist, ?_, ?_, ?_⟩
    · intro t ht
      exact (List.not_mem_nil t ht).elim
    · intro t ht
      exact (List.not_mem_nil t ht).elim
    · intro i hi q u hid
      trivial
  | cons t0 rest ih =>
    intro st hband hdist hsubq hnd
    simp only [List.map_cons, List.nodup_cons] at hnd
    obtain ⟨hnotin, hndrest⟩ := hnd
    simp only [List.foldl_cons]
    by_cases he0 : eligible now t0
    · obtain ⟨hband1, hdist1, hplace, hpin, hfwd, hbackw⟩ :=
        agingThread_step now cur which st t0 hband hdist (hsubq t0 (by simp)) he0
      have hiffstep : ∀ q u, u.id ≠ t0.id →
          (u ∈ queueOf q (agingThread now cur which st t0) ↔ u ∈ queueOf q st) :=
        fun q u hne => ⟨fun hu => hfwd q u hu hne, fun hu => hbackw q u hu hne⟩
      have hsubq1 : ∀ t ∈ rest, t ∈ queueOf which (agingThread now cur which st t0) := by
        intro t ht
        have hne : t.id ≠ t0.id := by
          intro hequ
          exact hnotin (hequ ▸ List.mem_map.mpr ⟨t, ht, rfl⟩)
        exact (hiffstep which t hne).mpr (hsubq t (by simp [ht]))
      obtain ⟨hbandF, hdistF, hposF, hnegF, hframeF⟩ :=
        ih (agingThread now cur which st t0) hband1 hdist1 hsubq1 hndrest
      refine ⟨hbandF, hdistF, ?_, ?_, ?_⟩
      · intro t ht he
        rcases List.mem_cons.mp ht with rfl | ht
        · have hiffF : ∀ q u, u.id = t.id →
              (u ∈ queueOf q (rest.foldl (agingThread now cur which)
                (agingThread now cur which st t)) ↔
               u ∈ queueOf q (agingThread now cur which st t)) :=
            fun q u hid => hframeF t.id hnotin q u hid
          refine ⟨(hiffF _ (promote now t) (promote_id now t)).mpr hplace, ?_⟩
          intro q u hu hid
          exact hpin q u ((hiffF q u hid).mp hu) hid
        · exact hposF t ht he
      · intro t ht he
        rcases List.mem_cons.mp ht with rfl | ht
        · exact absurd he0 (by exact he)
        · intro q u hid
          have hne : t.id ≠ t0.id := by
            intro hequ
            exact hnotin (hequ ▸ List.mem_map.mpr ⟨t, ht, rfl⟩)
          exact (hnegF t ht he q u hid).trans (hiffstep q u (hid ▸ hne))
      · intro i hi q u hid
        have hne0 : i ≠ t0.id := by
          intro hh
          exact hi (by simp [hh])
        have hirest : i ∉ rest.map Thread.id := by
          intro hh
          exact hi (by simp [hh])
        exact (hframeF i hirest q u hid).trans (hiffstep q u (hid ▸ hne0))
    · have hstep : agingThread now cur which st t0 = st := by
        unfold agingThread
        rw [if_neg he0]
      rw [hstep]
      obtain ⟨hbandF, hdistF, hposF, hnegF, hframeF⟩ :=
        ih st hband hdist (fun t ht => hsubq t (by simp [ht])) hndrest
      refine ⟨hbandF, hdistF, ?_, ?_, ?_⟩
      · intro t ht he
        rcases List.mem_cons.mp ht with rfl | ht
        · exact absurd he he0
        · exact hposF t ht he
      · intro t ht he
        rcases List.mem_cons.mp ht with rfl | ht
        · intro q u hid
          exact hframeF t.id hnotin q u hid
        · exact hnegF t ht he
      · intro i hi q u hid
        exact hframeF i (fun hh => hi (by simp [hh])) q u hid

/-- One `aging` pass over a queue, stated against the live queue. -/
theorem aging_pass (now : Int) (cur : Thread) (which : QueueId) (st : SchedState)
    (hband : BandInv st) (hdist : DistinctIds st) :
    BandInv (aging now cur which st) ∧
    DistinctIds (aging now cur which st) ∧
    (∀ t ∈ queueOf which st, eligible now t →
      promote now t ∈ queueOf (bandOf (promote now t).priority) (aging now cur which st) ∧
      (∀ q u, u ∈ queueOf q (aging now cur which st) → u.id = t.id →
        q = bandOf (promote now t).priority ∧ u = promote now t)) ∧
    (∀ t ∈ queueOf which st, ¬eligible now t → ∀ q u, u.id = t.id →
      (u ∈ queueOf q (aging now cur which st) ↔ u ∈ queueOf q st)) ∧
    (∀ i : Nat, i ∉ (queueOf which st).map Thread.id → ∀ q u, u.id = i →
      (u ∈ queueOf q (aging now cur which st) ↔ u ∈ queueOf q st)) := by
  unfold aging
  exact aging_fold now cur which (queueOf which st) st hband hdist
    (fun t ht => ht) (distinct_queue st hdist which)

theorem notin_of_unique (st : SchedState) (hdist : DistinctIds st)
    (q : QueueId) (t : Thread) (hmem : t ∈ queueOf q st)
    (q' : QueueId) (hne : q' ≠ q) : t.id ∉ (queueOf q' st).map Thread.id := by
  intro hh
  obtain ⟨u, hu, hequ⟩ := List.mem_map.mp hh
  exact distinct_cross st hdist q' q hne u hu t hmem hequ

theorem promote_ge100 (now : Int) (t : Thread) (h : 100 ≤ t.priority) :
    100 ≤ (promote now t).priority := by
  unfold promote
  simp only
  split <;> omega

theorem promote_ge50 (now : Int) (t : Thread) (h : 50 ≤ t.priority) :
    50 ≤ (promote now t).priority := by
  unfold promote
  simp only
  split <;> omega

theorem bandOf_ne_q3 (p : Int) (h : 50 ≤ p) : bandOf p ≠ .q3 := by
  unfold bandOf
  by_cases h1 : 100 ≤ p
  · rw [if_pos h1]
    decide
  · rw [if_neg h1, if_pos h]
    decide

/-- Claim C3: on an aging tick over well-formed ready queues (each thread
in the queue of its band, distinct thread identities), every ready thread
with priority in [0,150) that has waited at least 1500 ticks is replaced,
wherever its id occurs, by its promoted version — priority
`min(149, old+10)`, `TimeInReadyQueue` reduced by 1500,
`ReadyStartTime := now` — sitting exactly in the queue of its new band;
every other ready thread stays unchanged in its queue. -/
theorem agingCheck_updates (now : Int) (cur : Thread) (st : SchedState)
    (hband : BandInv st) (hdist : DistinctIds st) :
    ∀ q t, t ∈ queueOf q st →
      (eligible now t →
        promote now t ∈ queueOf (bandOf (promote now t).priority)
          (agingCheck now cur st) ∧
        (∀ q' u, u ∈ queueOf q' (agingCheck now cur st) → u.id = t.id →
          q' = bandOf (promote now t).priority ∧ u = promote now t)) ∧
      (¬eligible now t →
        t ∈ queueOf q (agingCheck now cur st) ∧
        (∀ q' u, u ∈ queueOf q' (agingCheck now cur st) → u.id = t.id →
          q' = q ∧ u = t)) := by
  obtain ⟨hb1, hd1, hpos1, hneg1, hfr1⟩ := aging_pass now cur .q1 st hband hdist
  set stA := aging now cur .q1 st with hstA
  obtain ⟨hb2, hd2, hpos2, hneg2, hfr2⟩ := aging_pass now cur .q2 stA hb1 hd1
  set stB := aging now cur .q2 stA with hstB
  obtain ⟨hb3, hd3, hpos3, hneg3, hfr3⟩ := aging_pass now cur .q3 stB hb2 hd2
  have hCheck : agingCheck now cur st = aging now cur .q3 stB := by
    unfold agingCheck
    rw [hstB, hstA]
  rw [hCheck]
  intro q t hmem
  constructor
  · intro he
    cases q with
    | q1 =>
      have hpri := hband.1 t hmem
      have hbb : bandOf (promote now t).priority = .q1 := by
        unfold bandOf
        rw [if_pos (promote_ge100 now t hpri.1)]
      obtain ⟨hplA, hpinA⟩ := hpos1 t hmem he
      have hnotin2 : t.id ∉ (queueOf .q2 stA).map Thread.id := by
        intro hh
        obtain ⟨u, hu, hequ⟩ := List.mem_map.mp hh
        have := (hpinA .q2 u hu hequ).1
        rw [hbb] at this
        cases this
      have hiff2 := hfr2 t.id hnotin2
      have hnotin3 : t.id ∉ (queueOf .q3 stB).map Thread.id := by
        intro hh
        obtain ⟨u, hu, hequ⟩ := List.mem_map.mp hh
        have hu' := (hiff2 .q3 u hequ).mp hu
        have := (hpinA .q3 u hu' hequ).1
        rw [hbb] at this
        cases this
      have hiff3 := hfr3 t.id hnotin3
      refine ⟨(hiff3 _ (promote now t) (promote_id now t)).mpr
        ((hiff2 _ (promote now t) (promote_id now t)).mpr hplA), ?_⟩
      intro q' u hu hequ
      exact hpinA q' u ((hiff2 q' u hequ).mp ((hiff3 q' u hequ).mp hu)) hequ
    | q2 =>
      have hpri := hband.2.1 t hmem
      have hiff1 := hfr1 t.id (notin_of_unique st hdist .q2 t hmem .q1 (by decide))
      have hmemA : t ∈ queueOf .q2 stA := (hiff1 .q2 t rfl).mpr hmem
      obtain ⟨hplB, hpinB⟩ := hpos2 t hmemA he
      have hnotin3 : t.id ∉ (queueOf .q3 stB).map Thread.id := by
        intro hh
        obtain ⟨u, hu, hequ⟩ := List.mem_map.mp hh
        have := (hpinB .q3 u hu hequ).1
        exact bandOf_ne_q3 (promote now t).priority (promote_ge50 now t hpri.1) this.symm
      have hiff3 := hfr3 t.id hnotin3
      refine ⟨(hiff3 _ (promote now t) (promote_id now t)).mpr hplB, ?_⟩
      intro q' u hu hequ
      exact hpinB q' u ((hiff3 q' u hequ).mp hu) hequ
    | q3 =>
      have hiff1 := hfr1 t.id (notin_of_unique st hdist .q3 t hmem .q1 (by decide))
      have hmemA : t ∈ queueOf .q3 stA := (hiff1 .q3 t rfl).mpr hmem
      have hnotin2 : t.id ∉ (queueOf .q2 stA).map Thread.id := by
        intro hh
        obtain ⟨u, hu, hequ⟩ := List.mem_map.mp hh
        have hu' := (hiff1 .q2 u hequ).mp hu
        exact distinct_cross st hdist .q2 .q3 (by decide) u hu' t hmem hequ
      have hiff2 := hfr2 t.id hnotin2
      have hmemB : t ∈ queueOf .q3 stB := (hiff2 .q3 t rfl).mpr hmemA
      exact hpos3 t hmemB he
  · intro he
    have hiffs : ∀ q' u, u.id = t.id →
        (u ∈ queueOf q' (aging now cur .q3 stB) ↔ u ∈ queueOf q' st) := by
      cases q with
      | q1 =>
        intro q' u hequ
        have hiff1 := hneg1 t hmem he
        have hnotin2 : t.id ∉ (queueOf .q2 stA).map Thread.id := by
          intro hh
          obtain ⟨v, hv, heqv⟩ := List.mem_map.mp hh
          have hv' := (hiff1 .q2 v heqv).mp hv
          exact distinct_cross st hdist .q2 .q1 (by decide) v hv' t hmem heqv
        have hiff2 := hfr2 t.id hnotin2
        have hnotin3 : t.id ∉ (queueOf .q3 stB).map Thread.id := by
          intro hh
          obtain ⟨v, hv, heqv⟩ := List.mem_map.mp hh
          have hv' := (hiff1 .q3 v heqv).mp ((hiff2 .q3 v heqv).mp hv)
          exact distinct_cross st hdist .q3 .q1 (by decide) v hv' t hmem heqv
        have hiff3 := hfr3 t.id hnotin3
        exact ((hiff3 q' u hequ).trans (hiff2 q' u hequ)).trans (hiff1 q' u hequ)
      | q2 =>
        intro q' u hequ
        have hiff1 := hfr1 t.id (notin_of_unique st hdist .q2 t hmem .q1 (by decide))
        have hmemA : t ∈ queueOf .q2 stA := (hiff1 .q2 t rfl).mpr hmem
        have hiff2 := hneg2 t hmemA he
        have hnotin3 : t.id ∉ (queueOf .q3 stB).map Thread.id := by
          intro hh
          obtain ⟨v, hv, heqv⟩ := List.mem_map.mp hh
          have hv' := (hiff1 .q3 v heqv).mp ((hiff2 .q3 v heqv).mp hv)
          exact distinct_cross st hdist .q3 .q2 (by decide) v hv' t hmem heqv
        have hiff3 := hfr3 t.id hnotin3
        exact ((hiff3 q' u hequ).trans (hiff2 q' u hequ)).trans (hiff1 q' u hequ)
      | q3 =>
        intro q' u hequ
        have hiff1 := hfr1 t.id (notin_of_unique st hdist .q3 t hmem .q1 (by decide))
        have hmemA : t ∈ queueOf .q3 stA := (hiff1 .q3 t rfl).mpr hmem
        have hnotin2 : t.id ∉ (queueOf .q2 stA).map Thread.id := by
          intro hh
          obtain ⟨v, hv, heqv⟩ := List.mem_map.mp hh
          have hv' := (hiff1 .q2 v heqv).mp hv
          exact distinct_cross st hdist .q2 .q3 (by decide) v hv' t hmem heqv
        have hiff2 := hfr2 t.id hnotin2
        have hmemB : t ∈ queueOf .q3 stB := (hiff2 .q3 t rfl).mpr hmemA
        have hiff3 := hneg3 t hmemB he
        exact ((hiff3 q' u hequ).trans (hiff2 q' u hequ)).trans (hiff1 q' u hequ)
    refine ⟨(hiffs q t rfl).mpr hmem, ?_⟩
    intro q' u hu hequ
    exact unique_occurrence st hdist q t hmem q' u ((hiffs q' u hequ).mp hu) hequ

/-- Witness for C3 at a concrete input: a thread of priority 95 that has
waited 2000 ticks in L2 is promoted to priority 105 and moves to L1. -/
theorem agingCheck_updates_witness :
    promote 2000 ⟨1, 95, 5, 0, 0⟩ ∈
      queueOf (bandOf (promote 2000 ⟨1, 95, 5, 0, 0⟩).priority)
        (agingCheck 2000 ⟨0, 120, 10, 0, 0⟩ ⟨[], [⟨1, 95, 5, 0, 0⟩], [], false⟩) :=
  (((agingCheck_updates 2000 ⟨0, 120, 10, 0, 0⟩ ⟨[], [⟨1, 95, 5, 0, 0⟩], [], false⟩
    (by decide) (by decide)) QueueId.q2 ⟨1, 95, 5, 0, 0⟩ (by decide)).1 (by decide)).1

/-- `ReadyToRun` preserves the band and distinctness invariants and
inserts the stamped thread into the queue of its priority band. -/
theorem ReadyToRun_preserves (now : Int) (st : SchedState) (t : Thread)
    (hband : BandInv st) (hdist : DistinctIds st)
    (h0 : 0 ≤ t.priority) (h149 : t.priority ≤ 149) (hfresh : t.id ∉ idsOf st) :
    BandInv (ReadyToRun now st t) ∧ DistinctIds (ReadyToRun now st t) ∧
    { t with ReadyStartTime := now } ∈
      queueOf (bandOf t.priority) (ReadyToRun now st t) := by
  obtain ⟨i0, p0, pt0, rs0, tq0⟩ := t
  simp only at h0 h149 hfresh
  unfold ReadyToRun
  simp only
  split_ifs with hc1 hc2 hc3
  · -- L1
    refine ⟨⟨?_, ?_, ?_⟩, ?_, ?_⟩
    · intro u hu
      have hu' : u ∈ sortedInsert Timecmp ⟨i0, p0, pt0, now, tq0⟩ st.l1 := hu
      rw [mem_sortedInsert] at hu'
      rcases hu' with rfl | hu'
      · simp only
        omega
      · exact hband.1 u hu'
    · intro u hu
      exact hband.2.1 u hu
    · intro u hu
      exact hband.2.2 u hu
    · unfold DistinctIds
      rw [idsOf_eq]
      dsimp only
      have hperm : ((sortedInsert Timecmp ⟨i0, p0, pt0, now, tq0⟩ st.l1).map Thread.id
          ++ st.l2.map Thread.id ++ st.l3.map Thread.id).Perm (i0 :: idsOf st) := by
        refine (List.Perm.append (List.Perm.append
          ((sortedInsert_perm Timecmp _ _).map Thread.id) (List.Perm.refl _))
          (List.Perm.refl _)).trans ?_
        rw [idsOf_eq]
        simp only [List.map_cons, List.cons_append]
        exact List.Perm.refl _
      rw [hperm.nodup_iff, List.nodup_cons]
      exact ⟨hfresh, hdist⟩
    · have hb : bandOf p0 = .q1 := by
        unfold bandOf
        rw [if_pos (by omega : (100 : Int) ≤ p0)]
      rw [hb]
      exact (mem_sortedInsert _ _ _ _).mpr (Or.inl rfl)
  · -- L2
    refine ⟨⟨?_, ?_, ?_⟩, ?_, ?_⟩
    · intro u hu
      exact hband.1 u hu
    · intro u hu
      have hu' : u ∈ sortedInsert Pricmp ⟨i0, p0, pt0, now, tq0⟩ st.l2 := hu
      rw [mem_sortedInsert] at hu'
      rcases hu' with rfl | hu'
      · simp only
        omega
      · exact hband.2.1 u hu'
    · intro u hu
      exact hband.2.2 u hu
    · unfold DistinctIds
      rw [idsOf_eq]
      dsimp only
      have hperm : (st.l1.map Thread.id
          ++ (sortedInsert Pricmp ⟨i0, p0, pt0, now, tq0⟩ st.l2).map Thread.id
          ++ st.l3.map Thread.id).Perm (i0 :: idsOf st) := by
        refine (List.Perm.append (List.Perm.append (List.Perm.refl _)
          ((sortedInsert_perm Pricmp _ _).map Thread.id))
          (List.Perm.refl _)).trans ?_
        simp only [List.map_cons]
        refine (List.Perm.append List.perm_middle (List.Perm.refl _)).trans ?_
        rw [idsOf_eq]
        simp only [List.cons_append]
        exact List.Perm.refl _
      rw [hperm.nodup_iff, List.nodup_cons]
      exact ⟨hfresh, hdist⟩
    · have hb : bandOf p0 = .q2 := by
        unfold bandOf
        rw [if_neg (by omega : ¬(100 : Int) ≤ p0), if_pos (by omega : (50 : Int) ≤ p0)]
      rw [hb]
      exact (mem_sortedInsert _ _ _ _).mpr (Or.inl rfl)
  · -- L3
    refine ⟨⟨?_, ?_, ?_⟩, ?_, ?_⟩
    · intro u hu
      exact hband.1 u hu
    · intro u hu
      exact hband.2.1 u hu
    · intro u hu
      have hu' : u ∈ st.l3 ++ [(⟨i0, p0, pt0, now, tq0⟩ : Thread)] := hu
      rcases List.mem_append.mp hu' with hu' | hu'
      · exact hband.2.2 u hu'
      · rcases List.mem_singleton.mp hu' with rfl
        simp only
        omega
    · unfold DistinctIds
      rw [idsOf_eq]
      dsimp only
      have hperm : (st.l1.map Thread.id ++ st.l2.map Thread.id
          ++ (st.l3 ++ [(⟨i0, p0, pt0, now, tq0⟩ : Thread)]).map Thread.id).Perm
            (i0 :: idsOf st) := by
        simp only [List.map_append, List.map_cons, List.map_nil, idsOf_eq]
        rw [← List.append_assoc]
        exact List.perm_append_singleton _ _
      rw [hperm.nodup_iff, List.nodup_cons]
      exact ⟨hfresh, hdist⟩
    · have hb : bandOf p0 = .q3 := by
        unfold bandOf
        rw [if_neg (by omega : ¬(100 : Int) ≤ p0), if_neg (by omega : ¬(50 : Int) ≤ p0)]
      rw [hb]
      exact List.mem_append.mpr (Or.inr (List.mem_singleton.mpr rfl))
  · omega

/-- Claim C8: every thread with priority in [0,149] made ready through
`ReadyToRun` is inserted (with its ReadyStartTime stamped) into the queue
matching its priority band (L1 for [100,149], L2 for [50,99], L3 for
[0,49]), and both `ReadyToRun` and a full aging pass (`agingCheck`)
preserve the invariant that every ready thread resides in the queue of
its current priority band and that no thread id appears in two queues. -/
theorem ready_queue_band_invariant :
    (∀ now st t, BandInv st → DistinctIds st →
      0 ≤ t.priority → t.priority ≤ 149 → t.id ∉ idsOf st →
      BandInv (ReadyToRun now st t) ∧ DistinctIds (ReadyToRun now st t) ∧
      { t with ReadyStartTime := now } ∈
        queueOf (bandOf t.priority) (ReadyToRun now st t)) ∧
    (∀ now cur st, BandInv st → DistinctIds st →
      BandInv (agingCheck now cur st) ∧ DistinctIds (agingCheck now cur st)) := by
  constructor
  · intro now st t hband hdist h0 h149 hfresh
    exact ReadyToRun_preserves now st t hband hdist h0 h149 hfresh
  · intro now cur st hband hdist
    obtain ⟨hb1, hd1, -⟩ := aging_pass now cur .q1 st hband hdist
    obtain ⟨hb2, hd2, -⟩ := aging_pass now cur .q2 (aging now cur .q1 st) hb1 hd1
    obtain ⟨hb3, hd3, -⟩ :=
      aging_pass now cur .q3 (aging now cur .q2 (aging now cur .q1 st)) hb2 hd2
    exact ⟨hb3, hd3⟩

/-- Witness for C8 at a concrete state: one L2 thread, a fresh thread of
priority 120 made ready, and one agingCheck pass. -/
theorem ready_queue_band_invariant_witness :
    BandInv (ReadyToRun 0 ⟨[], [⟨1, 60, 5, 0, 0⟩], [], false⟩ ⟨2, 120, 3, 0, 0⟩) ∧
    ({ (⟨2, 120, 3, 0, 0⟩ : Thread) with ReadyStartTime := 0 } ∈
      queueOf (bandOf (⟨2, 120, 3, 0, 0⟩ : Thread).priority)
        (ReadyToRun 0 ⟨[], [⟨1, 60, 5, 0, 0⟩], [], false⟩ ⟨2, 120, 3, 0, 0⟩)) ∧
    DistinctIds (agingCheck 0 ⟨0, 10, 0, 0, 0⟩ ⟨[], [⟨1, 60, 5, 0, 0⟩], [], false⟩) :=
  ⟨(ready_queue_band_invariant.1 0 ⟨[], [⟨1, 60, 5, 0, 0⟩], [], false⟩ ⟨2, 120, 3, 0, 0⟩
      (by decide) (by decide) (by decide) (by decide) (by decide)).1,
   (ready_queue_band_invariant.1 0 ⟨[], [⟨1, 60, 5, 0, 0⟩], [], false⟩ ⟨2, 120, 3, 0, 0⟩
      (by decide) (by decide) (by decide) (by decide) (by decide)).2.2,
   (ready_queue_band_invariant.2 0 ⟨0, 10, 0, 0, 0⟩ ⟨[], [⟨1, 60, 5, 0, 0⟩], [], false⟩
      (by decide) (by decide)).2⟩

theorem fsOpenLoop_some (disk : Nat → List DirEntry) (comps : List String) (d : Nat) :
    fsOpenLoop disk comps (some d) = some (deepestReached disk comps d) := by
  induction comps generalizing d with
  | nil => rfl
  | cons nm rest ih =>
    show (if dirFind (disk d) nm = -1 then some d
      else fsOpenLoop disk rest (some (dirFind (disk d) nm).toNat)) = _
    by_cases h : dirFind (disk d) nm = -1
    · rw [if_pos h]
      show _ = some (if dirFind (disk d) nm = -1 then d
        else deepestReached disk rest (dirFind (disk d) nm).toNat)
      rw [if_pos h]
    · rw [if_neg h, ih]
      show _ = some (if dirFind (disk d) nm = -1 then d
        else deepestReached disk rest (dirFind (disk d) nm).toNat)
      rw [if_neg h]

/-- Claim C10: `FileSystem::Open` never returns NULL: for every disk and
every component list it returns the open-file handle of the deepest
directory successfully reached (the root handle when the first component
is already missing, the file's own handle when the whole path
resolves). -/
theorem Open_never_returns_null (disk : Nat → List DirEntry) (comps : List String) :
    FileSystem.Open disk comps
      = some (deepestReached disk comps DirectorySector) :=
  fsOpenLoop_some disk comps DirectorySector

/-- Claim C2 (refuted): the syscall-path open does not resolve a
multi-component path through the intermediate directories. On `c2disk`
the path a/f fully resolves to sector 7 — the deepest-reached walk from
the root ends at 7 — yet `OpenAFile` returns 5, the sector of the FIRST
component as found in the root, and installs the handle of sector 5 in
`fileDescriptor`: its walking loop dies on the never-fetched scratch
directory and the final lookup runs on the root with the first
component. -/
theorem openAFile_does_not_resolve_path :
    FileSystem.OpenAFile c2disk ["a", "f"] = (some 5, 5) ∧
    deepestReached c2disk ["a", "f"] DirectorySector = 7 := by decide

/-- Claim C4 (refuted): `ByteToSector` can return a value that is not a
sector claimed during `Allocate`. With a free map of 32 clear sectors and
fileSize 3841, the top-level free-space check passes (31 data sectors
needed, sub-header sectors uncounted), the second recursive Allocate
fails for lack of space, but its FALSE is discarded (filehdr.cc lines
103-107) and the call returns TRUE (ghost `allOk` records the hidden
failure). The in-range offset 3840 then reads the never-populated second
sub-header and returns its initialising value -1 — not a sector at all,
and in particular clear in the map before and after the call. -/
theorem byteToSector_returns_unclaimed_value :
    ((FileHeader.Allocate (List.replicate 32 false) 3841).toOption.map
        (fun x => (x.1, x.2.1.allOk, x.2.1.numBytes,
          FileHeader.ByteToSector x.2.1 3840, bmTest x.2.2 (-1))))
      = some (true, false, 3841, some (-1), false) ∧
    bmTest (List.replicate 32 false) (-1) = false := by decide

end NachOS
